import Mathlib

/-!
# Verification of the libloki coordination runtime

Shallow embedding of the coordination layer of `lokilib.c` and the id
arithmetic of `ids.h`, together with proofs of the behavioural properties
stated in the library's documentation.

Messages on the Loki chip are credit-flow-controlled and FIFO per channel,
but all synchronisation tokens studied here are indistinguishable
zero-payload words, so per-buffer token *counts* give a faithful model.
Sends are modelled as instantaneous (the real network only delays
delivery, so every real schedule is one of the modelled schedules and the
model additionally allows earlier receives; the safety properties proved
here are therefore inherited by the real system).
-/

set_option linter.unusedVariables false
set_option maxRecDepth 10000

namespace LokiModel

/-- One dynamic action of a core: receive a token from an input buffer,
send a token to one input buffer of some core, multicast a token to a
list of input buffers (`rmtexecute`-style multicast sends deliver to a
whole bitmask at once), or execute one loop iteration of user work
(tagged with the iteration number). -/
inductive Act where
  | recv (ch : Nat)
  | send (ch : Nat)
  | sendM (chs : List Nat)
  | exec (tag : Nat)
deriving DecidableEq

/-- Global state of the message passing system: for every core, `none` if
the core has not yet entered the protocol, or `some k` if it has entered
and executed the first `k` actions of its program; and for every input
buffer, the number of tokens currently waiting in it. -/
structure Sys where
  status : Nat → Option Nat
  tokens : Nat → Nat

/-- Number of actions a core has executed so far (0 if it has not entered). -/
def cnt (s : Sys) (c : Nat) : Nat :=
  match s.status c with
  | none => 0
  | some k => k

/-- The core has entered the protocol (invoked the library call). -/
def ent (s : Sys) (c : Nat) : Prop := s.status c ≠ none

/-- The core has already executed the action at index `i` of its program. -/
def did (s : Sys) (c : Nat) (i : Nat) : Prop := i < cnt s c

/-- How many tokens a single action contributes to buffer `ch`. -/
def Act.sendCount : Act → Nat → Nat
  | .recv _, _ => 0
  | .send d, ch => if d = ch then 1 else 0
  | .sendM ds, ch => ds.count ch
  | .exec _, _ => 0

/-- Tokens contributed to buffer `ch` by a list of actions. -/
def sendsTo (l : List Act) (ch : Nat) : Nat := (l.map (fun a => a.sendCount ch)).sum

/-- Number of receives from buffer `ch` in a list of actions. -/
def recvCount (l : List Act) (ch : Nat) : Nat := l.count (.recv ch)

/-- Number of `exec` actions (loop iterations performed) in a list of actions. -/
def execCount (l : List Act) : Nat := l.countP (fun a => match a with | .exec _ => true | _ => false)

/-- The actions a core has executed so far. -/
def fired (prog : Nat → List Act) (s : Sys) (c : Nat) : List Act := (prog c).take (cnt s c)

/-- Interleaving semantics: at any moment one of the `n` participants may
enter the protocol, or perform its next program action, where a receive
requires a token to be present in the named buffer and consumes it, and
sends deposit tokens.  (Credit back-pressure only removes schedules, so
we do not model it; see the header comment.) -/
inductive Step (n : Nat) (prog : Nat → List Act) : Sys → Sys → Prop where
  | enter (s : Sys) (c : Nat) (hc : c < n) (hs : s.status c = none) :
      Step n prog s ⟨Function.update s.status c (some 0), s.tokens⟩
  | recv (s : Sys) (c k ch : Nat) (hc : c < n) (hs : s.status c = some k)
      (ha : (prog c)[k]? = some (.recv ch)) (ht : 0 < s.tokens ch) :
      Step n prog s ⟨Function.update s.status c (some (k+1)),
        Function.update s.tokens ch (s.tokens ch - 1)⟩
  | send (s : Sys) (c k ch : Nat) (hc : c < n) (hs : s.status c = some k)
      (ha : (prog c)[k]? = some (.send ch)) :
      Step n prog s ⟨Function.update s.status c (some (k+1)),
        Function.update s.tokens ch (s.tokens ch + 1)⟩
  | sendM (s : Sys) (c k : Nat) (chs : List Nat) (hc : c < n) (hs : s.status c = some k)
      (ha : (prog c)[k]? = some (.sendM chs)) :
      Step n prog s ⟨Function.update s.status c (some (k+1)),
        fun b => s.tokens b + chs.count b⟩
  | exec (s : Sys) (c k i : Nat) (hc : c < n) (hs : s.status c = some k)
      (ha : (prog c)[k]? = some (.exec i)) :
      Step n prog s ⟨Function.update s.status c (some (k+1)), s.tokens⟩

/-- Initial state: nobody has entered, all buffers empty. -/
def sysInit : Sys := ⟨fun _ => none, fun _ => 0⟩

/-- Reachable states of the system. -/
def Reach (n : Nat) (prog : Nat → List Act) (s : Sys) : Prop :=
  Relation.ReflTransGen (Step n prog) sysInit s

/-- Total number of tokens ever sent to buffer `ch`. -/
def sendTotal (n : Nat) (prog : Nat → List Act) (s : Sys) (ch : Nat) : Nat :=
  ∑ c in Finset.range n, sendsTo (fired prog s c) ch

/-- Total number of tokens ever received from buffer `ch`. -/
def recvTotal (n : Nat) (prog : Nat → List Act) (s : Sys) (ch : Nat) : Nat :=
  ∑ c in Finset.range n, recvCount (fired prog s c) ch

theorem sendsTo_append (l₁ l₂ : List Act) (ch : Nat) :
    sendsTo (l₁ ++ l₂) ch = sendsTo l₁ ch + sendsTo l₂ ch := by
  simp [sendsTo]

theorem recvCount_append (l₁ l₂ : List Act) (ch : Nat) :
    recvCount (l₁ ++ l₂) ch = recvCount l₁ ch + recvCount l₂ ch := by
  simp [recvCount]

theorem execCount_append (l₁ l₂ : List Act) :
    execCount (l₁ ++ l₂) = execCount l₁ + execCount l₂ := by
  simp [execCount]

theorem sendsTo_take_succ (l : List Act) (k : Nat) (a : Act) (h : l[k]? = some a) (ch : Nat) :
    sendsTo (l.take (k+1)) ch = sendsTo (l.take k) ch + a.sendCount ch := by
  rw [List.take_succ, h]
  simp [sendsTo]

theorem recvCount_take_succ (l : List Act) (k : Nat) (a : Act) (h : l[k]? = some a) (ch : Nat) :
    recvCount (l.take (k+1)) ch = recvCount (l.take k) ch + (if a = .recv ch then 1 else 0) := by
  rw [List.take_succ, h]
  simp only [Option.toList_some, recvCount, List.count_append]
  congr 1
  by_cases ha : a = .recv ch
  · simp [ha, List.count_cons]
  · have : ¬((Act.recv ch) == a) := by
      simp only [beq_iff_eq]
      exact fun hh => ha hh.symm
    simp [List.count_cons, this, ha]

theorem execCount_take_succ (l : List Act) (k : Nat) (a : Act) (h : l[k]? = some a) :
    execCount (l.take (k+1)) =
      execCount (l.take k) + (if (match a with | .exec _ => true | _ => false) then 1 else 0) := by
  rw [List.take_succ, h]
  simp only [Option.toList_some, execCount, List.countP_append]
  congr 1
  cases a <;> simp [List.countP, List.countP.go]

/-- Exchange lemma for sums that differ at a single point. -/
theorem sum_shift (n c : Nat) (hc : c < n) (f g : Nat → Nat) (h : ∀ x, x ≠ c → f x = g x) :
    (∑ x in Finset.range n, f x) + g c = (∑ x in Finset.range n, g x) + f c := by
  have hmem : c ∈ Finset.range n := Finset.mem_range.2 hc
  have hins : Finset.range n = insert c ((Finset.range n).erase c) :=
    (Finset.insert_erase hmem).symm
  rw [hins, Finset.sum_insert (Finset.not_mem_erase c _),
    Finset.sum_insert (Finset.not_mem_erase c _)]
  have heq : ∑ x in (Finset.range n).erase c, f x = ∑ x in (Finset.range n).erase c, g x := by
    refine Finset.sum_congr rfl (fun x hx => h x (Finset.ne_of_mem_erase hx))
  omega

/-- A sum over `range n` of a function supported on at most `{a, b}` is
bounded by the two named terms. -/
theorem sum_le_pair (n a b : Nat) (f : Nat → Nat)
    (h : ∀ x, x < n → x ≠ a → x ≠ b → f x = 0) :
    (∑ x in Finset.range n, f x) ≤ f a + f b := by
  have h1 : (∑ x in (Finset.range n).filter (fun x => x ∈ ({a, b} : Finset Nat)), f x)
      = ∑ x in Finset.range n, f x := by
    refine Finset.sum_filter_of_ne (fun x hx hfx => ?_)
    by_contra hmem
    simp only [Finset.mem_insert, Finset.mem_singleton] at hmem
    push_neg at hmem
    exact hfx (h x (Finset.mem_range.1 hx) hmem.1 hmem.2)
  have h2 : (Finset.range n).filter (fun x => x ∈ ({a, b} : Finset Nat)) ⊆ ({a, b} : Finset Nat) :=
    fun x hx => (Finset.mem_filter.1 hx).2
  have h3 : (∑ x in (Finset.range n).filter (fun x => x ∈ ({a, b} : Finset Nat)), f x)
      ≤ ∑ x in ({a, b} : Finset Nat), f x :=
    Finset.sum_le_sum_of_subset h2
  have h4 : (∑ x in ({a, b} : Finset Nat), f x) ≤ f a + f b := by
    by_cases hab : a = b
    · subst hab
      simp
    · rw [Finset.sum_insert (by simp [hab]), Finset.sum_singleton]
  omega

/-- Single-term lower bound for a sum over `range n`. -/
theorem le_sum_single (n c : Nat) (hc : c < n) (f : Nat → Nat) :
    f c ≤ ∑ x in Finset.range n, f x :=
  Finset.single_le_sum (fun x _ => Nat.zero_le (f x)) (Finset.mem_range.2 hc)

theorem cnt_of_status (s : Sys) (c k : Nat) (h : s.status c = some k) : cnt s c = k := by
  simp [cnt, h]

theorem cnt_update_self (st : Nat → Option Nat) (tk : Nat → Nat) (c v : Nat) :
    cnt ⟨Function.update st c (some v), tk⟩ c = v := by
  simp [cnt, Function.update_same]

theorem cnt_update_ne (st : Nat → Option Nat) (tk tk' : Nat → Nat) (c v x : Nat) (hx : x ≠ c) :
    cnt ⟨Function.update st c (some v), tk⟩ x = cnt ⟨st, tk'⟩ x := by
  simp [cnt, Function.update_noteq hx]

/-- After a step of core `c` from `k`, the per-core action counters. -/
theorem cnt_step (st : Nat → Option Nat) (tk tk' : Nat → Nat) (c k : Nat)
    (hs : st c = some k) (x : Nat) :
    cnt ⟨Function.update st c (some (k+1)), tk⟩ x = if x = c then k + 1 else cnt ⟨st, tk'⟩ x := by
  by_cases hx : x = c
  · subst hx
    simp [cnt, Function.update_same]
  · simp [cnt, Function.update_noteq hx, hx]

theorem sendTotal_succ (n : Nat) (prog : Nat → List Act) (t t' : Sys) (c k : Nat) (a : Act)
    (hc : c < n) (hcnt : cnt t c = k) (ha : (prog c)[k]? = some a)
    (hst : ∀ x, cnt t' x = if x = c then k + 1 else cnt t x) (ch : Nat) :
    sendTotal n prog t' ch = sendTotal n prog t ch + a.sendCount ch := by
  have hfired_ne : ∀ x, x ≠ c → fired prog t' x = fired prog t x := by
    intro x hx
    simp only [fired, hst x, if_neg hx]
  have hccnt : cnt t' c = k + 1 := by
    rw [hst c]
    simp
  have hfired_c : fired prog t' c = (prog c).take (k+1) := by
    simp only [fired, hccnt]
  have hfired_c' : fired prog t c = (prog c).take k := by
    simp only [fired, hcnt]
  have hx := sum_shift n c hc
    (fun x => sendsTo (fired prog t' x) ch)
    (fun x => sendsTo (fired prog t x) ch)
    (fun x hx => by simp only [hfired_ne x hx])
  have hδ : sendsTo ((prog c).take (k+1)) ch = sendsTo ((prog c).take k) ch + a.sendCount ch :=
    sendsTo_take_succ (prog c) k a ha ch
  simp only [sendTotal]
  simp only [hfired_c, hfired_c'] at hx hδ ⊢
  omega

theorem recvTotal_succ (n : Nat) (prog : Nat → List Act) (t t' : Sys) (c k : Nat) (a : Act)
    (hc : c < n) (hcnt : cnt t c = k) (ha : (prog c)[k]? = some a)
    (hst : ∀ x, cnt t' x = if x = c then k + 1 else cnt t x) (ch : Nat) :
    recvTotal n prog t' ch = recvTotal n prog t ch + (if a = .recv ch then 1 else 0) := by
  have hfired_ne : ∀ x, x ≠ c → fired prog t' x = fired prog t x := by
    intro x hx
    simp only [fired, hst x, if_neg hx]
  have hccnt : cnt t' c = k + 1 := by
    rw [hst c]
    simp
  have hfired_c : fired prog t' c = (prog c).take (k+1) := by
    simp only [fired, hccnt]
  have hfired_c' : fired prog t c = (prog c).take k := by
    simp only [fired, hcnt]
  have hx := sum_shift n c hc
    (fun x => recvCount (fired prog t' x) ch)
    (fun x => recvCount (fired prog t x) ch)
    (fun x hx => by simp only [hfired_ne x hx])
  have hδ : recvCount ((prog c).take (k+1)) ch
      = recvCount ((prog c).take k) ch + (if a = .recv ch then 1 else 0) :=
    recvCount_take_succ (prog c) k a ha ch
  simp only [recvTotal]
  simp only [hfired_c, hfired_c'] at hx hδ ⊢
  omega

/-- Token conservation: at every reachable state, the tokens waiting in a
buffer plus the tokens consumed from it equal the tokens sent to it. -/
theorem reach_conservation (n : Nat) (prog : Nat → List Act) (s : Sys)
    (h : Reach n prog s) (ch : Nat) :
    s.tokens ch + recvTotal n prog s ch = sendTotal n prog s ch := by
  induction h with
  | refl => simp [sysInit, recvTotal, sendTotal, fired, cnt, recvCount, sendsTo]
  | tail hr hstep ih =>
    rename_i t u
    cases hstep with
    | enter c hc hs =>
      have hfired : ∀ x, fired prog ⟨Function.update t.status c (some 0), t.tokens⟩ x
          = fired prog t x := by
        intro x
        by_cases hx : x = c
        · subst hx
          simp [fired, cnt_update_self, cnt, hs]
        · simp only [fired]
          rw [cnt_update_ne t.status t.tokens t.tokens c 0 x hx]
      simp only [recvTotal, sendTotal] at ih ⊢
      simp only [hfired]
      exact ih
    | recv c k ch₀ hc hs ha ht =>
      have hcnt : cnt t c = k := cnt_of_status t c k hs
      have hst : ∀ x, cnt ⟨Function.update t.status c (some (k+1)),
          Function.update t.tokens ch₀ (t.tokens ch₀ - 1)⟩ x
          = if x = c then k + 1 else cnt t x := by
        intro x
        exact cnt_step t.status t.tokens _ c k hs x
      rw [sendTotal_succ n prog t _ c k _ hc hcnt ha hst ch,
        recvTotal_succ n prog t _ c k _ hc hcnt ha hst ch]
      show Function.update t.tokens ch₀ (t.tokens ch₀ - 1) ch + _ = _
      by_cases hcc : ch₀ = ch
      · subst hcc
        rw [Function.update_same]
        simp only [Act.sendCount, Act.recv.injEq, if_true, eq_self_iff_true]
        omega
      · rw [Function.update_noteq (fun hne => hcc hne.symm)]
        have h1 : (Act.recv ch₀).sendCount ch = 0 := by simp [Act.sendCount]
        have h2 : (if (Act.recv ch₀) = Act.recv ch then 1 else 0) = 0 := by
          simp [Act.recv.injEq, hcc]
        omega
    | send c k ch₀ hc hs ha =>
      have hcnt : cnt t c = k := cnt_of_status t c k hs
      have hst : ∀ x, cnt ⟨Function.update t.status c (some (k+1)),
          Function.update t.tokens ch₀ (t.tokens ch₀ + 1)⟩ x
          = if x = c then k + 1 else cnt t x := by
        intro x
        exact cnt_step t.status t.tokens _ c k hs x
      rw [sendTotal_succ n prog t _ c k _ hc hcnt ha hst ch,
        recvTotal_succ n prog t _ c k _ hc hcnt ha hst ch]
      show Function.update t.tokens ch₀ (t.tokens ch₀ + 1) ch + _ = _
      by_cases hcc : ch₀ = ch
      · subst hcc
        rw [Function.update_same]
        simp only [Act.sendCount, if_true, eq_self_iff_true]
        have h2 : (if (Act.send ch₀ : Act) = Act.recv ch₀ then 1 else 0) = 0 := by simp
        omega
      · rw [Function.update_noteq (fun hne => hcc hne.symm)]
        have h1 : (Act.send ch₀).sendCount ch = 0 := by simp [Act.sendCount, hcc]
        have h2 : (if (Act.send ch₀) = Act.recv ch then 1 else 0) = 0 := by simp
        omega
    | sendM c k chs hc hs ha =>
      have hcnt : cnt t c = k := cnt_of_status t c k hs
      have hst : ∀ x, cnt ⟨Function.update t.status c (some (k+1)),
          fun b => t.tokens b + chs.count b⟩ x
          = if x = c then k + 1 else cnt t x := by
        intro x
        exact cnt_step t.status t.tokens _ c k hs x
      rw [sendTotal_succ n prog t _ c k _ hc hcnt ha hst ch,
        recvTotal_succ n prog t _ c k _ hc hcnt ha hst ch]
      show t.tokens ch + chs.count ch + _ = _
      have h1 : (Act.sendM chs).sendCount ch = chs.count ch := by simp [Act.sendCount]
      have h2 : (if (Act.sendM chs) = Act.recv ch then 1 else 0) = 0 := by simp
      omega
    | exec c k i hc hs ha =>
      have hcnt : cnt t c = k := cnt_of_status t c k hs
      have hst : ∀ x, cnt ⟨Function.update t.status c (some (k+1)), t.tokens⟩ x
          = if x = c then k + 1 else cnt t x := by
        intro x
        exact cnt_step t.status t.tokens _ c k hs x
      rw [sendTotal_succ n prog t _ c k _ hc hcnt ha hst ch,
        recvTotal_succ n prog t _ c k _ hc hcnt ha hst ch]
      show t.tokens ch + _ = _
      have h1 : (Act.exec i).sendCount ch = 0 := by simp [Act.sendCount]
      have h2 : (if (Act.exec i : Act) = Act.recv ch then 1 else 0) = 0 := by simp
      omega

theorem sendsTo_take_le_take (l : List Act) (ch : Nat) (j k : Nat) (h : j ≤ k) :
    sendsTo (l.take j) ch ≤ sendsTo (l.take k) ch := by
  have hjk : l.take j = (l.take k).take j := by
    rw [List.take_take, Nat.min_eq_left h]
  rw [hjk]
  have := List.take_append_drop j (l.take k)
  calc sendsTo ((l.take k).take j) ch
      ≤ sendsTo ((l.take k).take j) ch + sendsTo ((l.take k).drop j) ch := Nat.le_add_right _ _
    _ = sendsTo ((l.take k).take j ++ (l.take k).drop j) ch := (sendsTo_append _ _ ch).symm
    _ = sendsTo (l.take k) ch := by rw [this]

theorem sendsTo_take_le (l : List Act) (ch : Nat) (k : Nat) :
    sendsTo (l.take k) ch ≤ sendsTo l ch := by
  have := List.take_append_drop k l
  calc sendsTo (l.take k) ch
      ≤ sendsTo (l.take k) ch + sendsTo (l.drop k) ch := Nat.le_add_right _ _
    _ = sendsTo (l.take k ++ l.drop k) ch := (sendsTo_append _ _ ch).symm
    _ = sendsTo l ch := by rw [this]

theorem recvCount_take_le_take (l : List Act) (ch : Nat) (j k : Nat) (h : j ≤ k) :
    recvCount (l.take j) ch ≤ recvCount (l.take k) ch := by
  have hjk : l.take j = (l.take k).take j := by
    rw [List.take_take, Nat.min_eq_left h]
  rw [hjk]
  have := List.take_append_drop j (l.take k)
  calc recvCount ((l.take k).take j) ch
      ≤ recvCount ((l.take k).take j) ch + recvCount ((l.take k).drop j) ch := Nat.le_add_right _ _
    _ = recvCount ((l.take k).take j ++ (l.take k).drop j) ch := (recvCount_append _ _ ch).symm
    _ = recvCount (l.take k) ch := by rw [this]

/-- If a list has no sends to `ch` in its first `j` elements, then any
positive count of sends to `ch` in a longer front means progress beyond `j`. -/
theorem lt_of_sendsTo_take_pos (l : List Act) (ch : Nat) (j k : Nat)
    (h0 : sendsTo (l.take j) ch = 0) (hk : 0 < sendsTo (l.take k) ch) : j < k := by
  by_contra hle
  push_neg at hle
  have := sendsTo_take_le_take l ch k j hle
  omega

/-- A core that has entered stays entered. -/
theorem ent_mono_step (n : Nat) (prog : Nat → List Act) (s s' : Sys)
    (hstep : Step n prog s s') (g : Nat) (h : ent s g) : ent s' g := by
  cases hstep with
  | enter c hc hs =>
    show Function.update s.status c (some 0) g ≠ none
    by_cases hg : g = c
    · subst hg
      rw [Function.update_same]
      simp
    · rw [Function.update_noteq hg]
      exact h
  | recv c k ch hc hs ha ht =>
    show Function.update s.status c (some (k+1)) g ≠ none
    by_cases hg : g = c
    · subst hg
      rw [Function.update_same]
      simp
    · rw [Function.update_noteq hg]
      exact h
  | send c k ch hc hs ha =>
    show Function.update s.status c (some (k+1)) g ≠ none
    by_cases hg : g = c
    · subst hg
      rw [Function.update_same]
      simp
    · rw [Function.update_noteq hg]
      exact h
  | sendM c k chs hc hs ha =>
    show Function.update s.status c (some (k+1)) g ≠ none
    by_cases hg : g = c
    · subst hg
      rw [Function.update_same]
      simp
    · rw [Function.update_noteq hg]
      exact h
  | exec c k i hc hs ha =>
    show Function.update s.status c (some (k+1)) g ≠ none
    by_cases hg : g = c
    · subst hg
      rw [Function.update_same]
      simp
    · rw [Function.update_noteq hg]
      exact h

/-- Shape of a step: either a pure entry (no counter changes), or a core
performs the action at index `k` of its program and only its counter
advances, from `k` to `k + 1`. -/
theorem step_shape (n : Nat) (prog : Nat → List Act) (s s' : Sys)
    (hstep : Step n prog s s') :
    (∀ g, cnt s' g = cnt s g) ∨
    (∃ c k a, c < n ∧ s.status c = some k ∧ (prog c)[k]? = some a ∧
      (∀ g, cnt s' g = if g = c then k + 1 else cnt s g)) := by
  cases hstep with
  | enter c hc hs =>
    left
    intro g
    by_cases hg : g = c
    · subst hg
      rw [cnt_update_self]
      simp [cnt, hs]
    · exact cnt_update_ne s.status s.tokens s.tokens c 0 g hg
  | recv c k ch hc hs ha ht =>
    right
    exact ⟨c, k, _, hc, hs, ha, fun g => cnt_step s.status s.tokens _ c k hs g⟩
  | send c k ch hc hs ha =>
    right
    exact ⟨c, k, _, hc, hs, ha, fun g => cnt_step s.status s.tokens _ c k hs g⟩
  | sendM c k chs hc hs ha =>
    right
    exact ⟨c, k, _, hc, hs, ha, fun g => cnt_step s.status s.tokens _ c k hs g⟩
  | exec c k i hc hs ha =>
    right
    exact ⟨c, k, _, hc, hs, ha, fun g => cnt_step s.status s.tokens _ c k hs g⟩

theorem cnt_mono_step (n : Nat) (prog : Nat → List Act) (s s' : Sys)
    (hstep : Step n prog s s') (g : Nat) : cnt s g ≤ cnt s' g := by
  rcases step_shape n prog s s' hstep with h | ⟨c, k, a, hc, hs, ha, h⟩
  · rw [h g]
  · rw [h g]
    by_cases hg : g = c
    · subst hg
      rw [if_pos rfl]
      rw [cnt_of_status s g k hs]
      omega
    · rw [if_neg hg]

theorem did_mono_step (n : Nat) (prog : Nat → List Act) (s s' : Sys)
    (hstep : Step n prog s s') (g i : Nat) (h : did s g i) : did s' g i := by
  have := cnt_mono_step n prog s s' hstep g
  simp only [did] at *
  omega

/-- The only action-index that becomes newly executed during a step is the
stepping core's current program position. -/
theorem did_new_of_step (n : Nat) (prog : Nat → List Act) (s s' : Sys)
    (hstep : Step n prog s s') (g i : Nat) (hnew : did s' g i) (hold : ¬ did s g i) :
    ∃ a, g < n ∧ s.status g = some i ∧ (prog g)[i]? = some a := by
  rcases step_shape n prog s s' hstep with h | ⟨c, k, a, hc, hs, ha, h⟩
  · exfalso
    simp only [did] at hnew hold
    rw [h g] at hnew
    omega
  · simp only [did] at hnew hold
    rw [h g] at hnew
    by_cases hg : g = c
    · subst hg
      rw [if_pos rfl] at hnew
      have h2 : cnt s g = k := cnt_of_status s g k hs
      have hik : i = k := by omega
      subst hik
      exact ⟨a, hc, hs, ha⟩
    · exfalso
      rw [if_neg hg] at hnew
      omega

/-- `did` implies entered. -/
theorem ent_of_did (s : Sys) (g i : Nat) (h : did s g i) : ent s g := by
  simp only [did] at h
  show s.status g ≠ none
  intro hcontra
  simp [cnt, hcontra] at h

/-- `did` gives a lower bound on the executed front of a program. -/
theorem recvCount_fired_of_did (prog : Nat → List Act) (s : Sys) (g i ch : Nat)
    (h : did s g i) :
    recvCount ((prog g).take (i+1)) ch ≤ recvCount (fired prog s g) ch := by
  simp only [did] at h
  exact recvCount_take_le_take (prog g) ch (i+1) (cnt s g) h

end LokiModel

/-!
## SIMD loop striping (`worker_core`, `simd_loop` in lokilib.c)

With no helper function, each member of an `n`-core SIMD group executes
`for (iter = core; iter < iterations; iter += cores) func(iter, core);`.
-/

namespace SimdModel

/-- The loop of `worker_core` (lokilib.c): starting at `iter`, execute
every `cores`-th index below `iterations`.  The structural `fuel`
argument only serves termination: `workerCoreIters` passes
`fuel = iterations`, which is enough whenever `cores ≥ 1` because the
loop body always advances `iter` by `cores`.  (With `cores = 0` the C
loop does not terminate; the SIMD claims only concern `n > 1`.) -/
def stripeLoop : Nat → Nat → Nat → Nat → List Nat
  | 0, _, _, _ => []
  | fuel+1, cores, iterations, iter =>
    if iter < iterations then iter :: stripeLoop fuel cores iterations (iter + cores) else []

/-- Iteration indices executed, in execution order, by the worker at group
position `core` of an `n = cores` SIMD group (the `config->helper == NULL`
branch of `worker_core`). -/
def workerCoreIters (cores iterations core : Nat) : List Nat :=
  stripeLoop iterations cores iterations core

theorem stripeLoop_mem (fuel cores iterations : Nat) (hc : 0 < cores) :
    ∀ iter, iterations ≤ iter + fuel → ∀ i,
      (i ∈ stripeLoop fuel cores iterations iter ↔
        (iter ≤ i ∧ i < iterations ∧ (i - iter) % cores = 0)) := by
  induction fuel with
  | zero =>
    intro iter hfuel i
    simp only [stripeLoop, List.not_mem_nil, false_iff]
    omega
  | succ m ih =>
    intro iter hfuel i
    simp only [stripeLoop]
    by_cases hlt : iter < iterations
    · rw [if_pos hlt]
      have hrec := ih (iter + cores) (by omega) i
      simp only [List.mem_cons, hrec]
      constructor
      · rintro (rfl | ⟨h1, h2, h3⟩)
        · exact ⟨Nat.le_refl i, hlt, by simp⟩
        · refine ⟨by omega, h2, ?_⟩
          have heq : i - iter = (i - (iter + cores)) + cores := by omega
          rw [heq, Nat.add_mod_right]
          exact h3
      · rintro ⟨h1, h2, h3⟩
        by_cases hi : i = iter
        · exact Or.inl hi
        · right
          have hpos : 0 < i - iter := by omega
          have hdvd : cores ∣ (i - iter) := Nat.dvd_of_mod_eq_zero h3
          have hge : cores ≤ i - iter := Nat.le_of_dvd hpos hdvd
          refine ⟨by omega, h2, ?_⟩
          have heq : i - iter = (i - (iter + cores)) + cores := by omega
          rw [heq, Nat.add_mod_right] at h3
          exact h3
    · rw [if_neg hlt]
      simp only [List.not_mem_nil, false_iff]
      omega

/-- Characterisation of the executed indices: exactly those `i < iterations`
with `i mod cores = core`. -/
theorem workerCoreIters_mem (cores iterations core : Nat) (hcore : core < cores) (i : Nat) :
    i ∈ workerCoreIters cores iterations core ↔ (i < iterations ∧ i % cores = core) := by
  have hc : 0 < cores := by omega
  rw [workerCoreIters, stripeLoop_mem iterations cores iterations hc core (by omega) i]
  constructor
  · rintro ⟨h1, h2, h3⟩
    refine ⟨h2, ?_⟩
    have hdvd : cores ∣ (i - core) := Nat.dvd_of_mod_eq_zero h3
    rcases hdvd with ⟨d, hd⟩
    have heq : i = core + cores * d := by omega
    rw [heq, Nat.add_mul_mod_self_left]
    exact Nat.mod_eq_of_lt hcore
  · rintro ⟨h1, h2⟩
    have hle : core ≤ i := by
      have := Nat.mod_le i cores
      omega
    refine ⟨hle, h1, ?_⟩
    have hdm := Nat.div_add_mod i cores
    have heq : i - core = cores * (i / cores) := by omega
    rw [heq]
    exact Nat.mul_mod_right cores (i / cores)

theorem stripeLoop_lower (fuel cores iterations : Nat) :
    ∀ iter i, i ∈ stripeLoop fuel cores iterations iter → iter ≤ i := by
  induction fuel with
  | zero =>
    intro iter i h
    simp [stripeLoop] at h
  | succ m ih =>
    intro iter i h
    simp only [stripeLoop] at h
    by_cases hlt : iter < iterations
    · rw [if_pos hlt] at h
      rcases List.mem_cons.1 h with rfl | hmem
      · exact Nat.le_refl i
      · have := ih (iter + cores) i hmem
        omega
    · rw [if_neg hlt] at h
      simp at h

/-- The loop produces its indices in strictly increasing order. -/
theorem stripeLoop_sorted (fuel cores iterations : Nat) (hc : 0 < cores) :
    ∀ iter, List.Pairwise (fun a b => a < b) (stripeLoop fuel cores iterations iter) := by
  induction fuel with
  | zero =>
    intro iter
    simp [stripeLoop]
  | succ m ih =>
    intro iter
    simp only [stripeLoop]
    by_cases hlt : iter < iterations
    · rw [if_pos hlt]
      refine List.Pairwise.cons ?_ (ih (iter + cores))
      intro b hb
      have := stripeLoop_lower m cores iterations (iter + cores) b hb
      omega
    · rw [if_neg hlt]
      simp

end SimdModel

/-!
## Worker farm (`worker_farm`, `worker_thread` in lokilib.c)

The master loops over `iter = 0 .. config->iterations - 1`; each round it
waits for any worker to announce readiness (`receive_any_input()` returns
the announcing worker's id, which the worker sent) and replies with the
next unissued index.  Afterwards it answers the next `config->cores - 1`
requests with the kill sentinel `-1`.  `reqs` below is the order in which
worker requests arrive at the master.
-/

namespace FarmModel

/-- The issue loop of `worker_farm`: serve `rem` successive indices
(starting at `i`) to the requests at the head of `reqs`, in arrival order.
Returns the list of (worker, payload) replies and the unserved rest of the
request stream.  If the stream runs dry the master blocks forever on
`receive_any_input`, so no further replies happen. -/
def farmIssue : Nat → Nat → List Nat → List (Nat × Int) × List Nat
  | _, 0, reqs => ([], reqs)
  | _, _+1, [] => ([], [])
  | i, rem+1, w :: reqs =>
    ((w, (i : Int)) :: (farmIssue (i+1) rem reqs).1, (farmIssue (i+1) rem reqs).2)

/-- The kill loop of `worker_farm`: reply `-1` to the next `workers` requests. -/
def farmKill (workers : Nat) (reqs : List Nat) : List (Nat × Int) :=
  (reqs.take workers).map (fun w => (w, (-1 : Int)))

/-- All replies sent by the `worker_farm` master over a full run, in order:
the issue loop followed by the kill loop for the `cores - 1` workers. -/
def workerFarmRun (cores iterations : Nat) (reqs : List Nat) : List (Nat × Int) :=
  (farmIssue 0 iterations reqs).1 ++ farmKill (cores - 1) ((farmIssue 0 iterations reqs).2)

theorem farmIssue_eq_zip : ∀ (rem i : Nat) (reqs : List Nat), rem ≤ reqs.length →
    (farmIssue i rem reqs).1
      = (reqs.take rem).zip ((List.range' i rem).map Int.ofNat) := by
  intro rem
  induction rem with
  | zero =>
    intro i reqs h
    simp [farmIssue]
  | succ m ih =>
    intro i reqs h
    cases reqs with
    | nil => simp at h
    | cons w rs =>
      simp only [farmIssue, List.take, List.range', List.map, List.zip]
      rw [ih (i+1) rs (by simpa using h)]
      rfl

theorem farmIssue_rest : ∀ (rem i : Nat) (reqs : List Nat), rem ≤ reqs.length →
    (farmIssue i rem reqs).2 = reqs.drop rem := by
  intro rem
  induction rem with
  | zero =>
    intro i reqs h
    simp [farmIssue]
  | succ m ih =>
    intro i reqs h
    cases reqs with
    | nil => simp at h
    | cons w rs =>
      simp only [farmIssue, List.drop]
      exact ih (i+1) rs (by simpa using h)

end FarmModel

/-!
## Fatal assertion guards (`worker_farm`, `loki_spawn`, `spawn_prep`)

The C functions begin with `assert`s; a failed assertion aborts the calling
core.  We model each guard as an `Option Unit` where `none` means the
assertion fired (abort) and `some ()` means execution continues — there is
no error-return path.
-/

namespace AssertModel

/-- `worker_farm` entry guards: `assert(config->cores > 1);`
`assert(config->cores <= 6);` (limited by the master's input ports). -/
def worker_farm_entry (cores : Nat) : Option Unit :=
  if cores > 1 then (if cores ≤ 6 then some () else none) else none

/-- `spawn_prep` argument-count guard: `assert(argc <= 5);`. -/
def spawn_prep_entry (argc : Nat) : Option Unit :=
  if argc ≤ 5 then some () else none

/-- `loki_spawn` argument-count guard: `assert(argc <= 5);` (r13-r17). -/
def loki_spawn_entry (argc : Nat) : Option Unit :=
  if argc ≤ 5 then some () else none

end AssertModel

/-!
## Core/tile id arithmetic (`ids.h`)

Bit-packed identifiers are embedded arithmetically: `tile_id` packs
`(x << 3) | y` with `y < 8`, a core id packs `(tile << 4) | core` with
`core < 8`, so the bit-ors are additions on disjoint fields, `>> 3` is
`/ 8`, `& 0x7` is `% 8`, and `>> 4` is `/ 16`.  C unsigned subtraction
wraps where Nat subtraction truncates; on the compute tiles (coordinates
≥ 1) and for group members at non-negative offsets — the only cases the
claim concerns — no subtraction underflows, so the two agree.
-/

namespace IdsModel

/-- `CORES_PER_TILE` (chip.h). -/
def CPT : Nat := 8

/-- `COMPUTE_TILE_COLUMNS` (chip.h). -/
def COLS : Nat := 4

/-- `tile_id(x, y) = (x << 3) | (y << 0)` (ids.h). -/
def tile_id (x y : Nat) : Nat := x * 8 + y

/-- `tile2int(tile) = (y-1)*COMPUTE_TILE_COLUMNS + (x-1)` with
`x = tile >> 3`, `y = tile & 7` (ids.h). -/
def tile2int (tile : Nat) : Nat := (tile % 8 - 1) * COLS + (tile / 8 - 1)

/-- `int2tile(val) = tile_id(val % COLS + 1, val / COLS + 1)` (ids.h). -/
def int2tile (v : Nat) : Nat := tile_id (v % COLS + 1) (v / COLS + 1)

/-- `make_unique_core_id(tile, core) = (tile << 4) | core` (ids.h). -/
def make_unique_core_id (tile core : Nat) : Nat := tile * 16 + core

/-- `get_unique_core_id_core(id) = id & 0x7` (ids.h). -/
def get_unique_core_id_core (id : Nat) : Nat := id % 8

/-- `get_unique_core_id_tile(id) = id >> 4` (ids.h). -/
def get_unique_core_id_tile (id : Nat) : Nat := id / 16

/-- `group_core_index(first_core_id)` (ids.h) with the implicit
`get_unique_core_id()` made an explicit argument `my`. -/
def group_core_index (first my : Nat) : Nat :=
  (tile2int (get_unique_core_id_tile my) - tile2int (get_unique_core_id_tile first)) * CPT
    + get_unique_core_id_core my - get_unique_core_id_core first

/-- `group_core_id(first_core_id, index)` (ids.h). -/
def group_core_id (first index : Nat) : Nat :=
  if CPT > get_unique_core_id_core first + index then
    make_unique_core_id (get_unique_core_id_tile first) (get_unique_core_id_core first + index)
  else
    make_unique_core_id
      (int2tile (tile2int (get_unique_core_id_tile first)
        + (index + get_unique_core_id_core first) / CPT))
      ((get_unique_core_id_core first + index) % CPT)

/-- Linear position of a core id: global tile number times `CORES_PER_TILE`
plus in-tile position. -/
def linearPos (id : Nat) : Nat :=
  tile2int (get_unique_core_id_tile id) * CPT + get_unique_core_id_core id

end IdsModel

/-!
## Claim theorems C3, C4, C7, C9
-/

/-- **C4.** In `simd_loop` with `n > 1` cores and no helper function, the
participant at position `c` executes exactly the iterations `i` with
`0 ≤ i < iterations` and `i mod n = c`, in increasing order of `i`; across
the group every iteration index is executed by exactly one participant
(the one at position `i mod n`); and the concrete scenario of 8 cores and
1000 iterations with a summing reduction yields 499500. -/
theorem simd_loop_stripes_iterations (n iterations c : Nat) (hn : 1 < n) (hc : c < n) :
    (∀ i, i ∈ SimdModel.workerCoreIters n iterations c ↔ (i < iterations ∧ i % n = c)) ∧
    List.Pairwise (fun a b => a < b) (SimdModel.workerCoreIters n iterations c) ∧
    (∀ i, i < iterations → ∀ d, d < n →
      (i ∈ SimdModel.workerCoreIters n iterations d ↔ d = i % n)) ∧
    ((List.range 8).map (fun d => (SimdModel.workerCoreIters 8 1000 d).sum)).sum = 499500 := by
  refine ⟨fun i => SimdModel.workerCoreIters_mem n iterations c hc i, ?_, ?_, by decide⟩
  · exact SimdModel.stripeLoop_sorted iterations n iterations (by omega) c
  · intro i hi d hd
    rw [SimdModel.workerCoreIters_mem n iterations d hd i]
    constructor
    · rintro ⟨_, rfl⟩
      rfl
    · rintro rfl
      exact ⟨hi, rfl⟩

theorem simd_loop_stripes_iterations_witness :
    1 < 8 ∧ 3 < 8 ∧
    ((∀ i, i ∈ SimdModel.workerCoreIters 8 20 3 ↔ (i < 20 ∧ i % 8 = 3)) ∧
     List.Pairwise (fun a b => a < b) (SimdModel.workerCoreIters 8 20 3) ∧
     (∀ i, i < 20 → ∀ d, d < 8 →
       (i ∈ SimdModel.workerCoreIters 8 20 d ↔ d = i % 8)) ∧
     ((List.range 8).map (fun d => (SimdModel.workerCoreIters 8 1000 d).sum)).sum = 499500) :=
  ⟨by decide, by decide, simd_loop_stripes_iterations 8 20 3 (by decide) (by decide)⟩

/-- **C3.** For `cores ∈ [2,6]` and any `iterations ≥ 0`, a full
`worker_farm` run issues exactly the indices `0, …, iterations-1`: the
`j`-th served request receives index `j` (so each index goes to the first
worker that announced readiness for it), the non-sentinel payloads over the
whole run are exactly `0, …, iterations-1` each once, and the remaining
`cores-1` requests receive only the kill sentinel `-1`. -/
theorem worker_farm_issues_each_index_once (cores iterations : Nat) (reqs : List Nat)
    (hc2 : 2 ≤ cores) (hc6 : cores ≤ 6)
    (hlen : iterations + (cores - 1) ≤ reqs.length) :
    (FarmModel.workerFarmRun cores iterations reqs).take iterations
        = (reqs.take iterations).zip ((List.range iterations).map Int.ofNat) ∧
    ((FarmModel.workerFarmRun cores iterations reqs).filter (fun p => p.2 ≠ -1)).map Prod.snd
        = (List.range iterations).map Int.ofNat ∧
    (FarmModel.workerFarmRun cores iterations reqs).drop iterations
        = ((reqs.drop iterations).take (cores - 1)).map (fun w => (w, (-1 : Int))) := by
  have hlen1 : iterations ≤ reqs.length := by omega
  have hissue := FarmModel.farmIssue_eq_zip iterations 0 reqs hlen1
  have hrest := FarmModel.farmIssue_rest iterations 0 reqs hlen1
  have hrange : List.range iterations = List.range' 0 iterations := List.range_eq_range' iterations
  have hlentake : (reqs.take iterations).length = iterations := by
    rw [List.length_take]
    omega
  have hlenrange : ((List.range' 0 iterations).map Int.ofNat).length = iterations := by
    rw [List.length_map, List.length_range']
  have hlenzip : ((reqs.take iterations).zip
      ((List.range' 0 iterations).map Int.ofNat)).length = iterations := by
    rw [List.length_zip, hlentake, hlenrange]
    omega
  unfold FarmModel.workerFarmRun
  rw [hissue, hrest, hrange]
  refine ⟨?_, ?_, ?_⟩
  · rw [List.take_append_of_le_length (by rw [hlenzip])]
    exact List.take_of_length_le (by rw [hlenzip])
  · rw [List.filter_append]
    have h1 : ((reqs.take iterations).zip
        ((List.range' 0 iterations).map Int.ofNat)).filter (fun p => p.2 ≠ -1)
        = (reqs.take iterations).zip ((List.range' 0 iterations).map Int.ofNat) := by
      rw [List.filter_eq_self]
      intro p hp
      have hsnd := (List.of_mem_zip hp).2
      rcases List.mem_map.1 hsnd with ⟨j, hj, hjp⟩
      have hne : p.2 ≠ -1 := by
        rw [← hjp, Int.ofNat_eq_natCast]
        omega
      simpa using hne
    have h2 : (FarmModel.farmKill (cores - 1) (reqs.drop iterations)).filter
        (fun p => p.2 ≠ -1) = [] := by
      rw [List.filter_eq_nil_iff]
      intro p hp
      rcases List.mem_map.1 hp with ⟨w, hw, hwp⟩
      rw [← hwp]
      simp
    rw [h1, h2, List.append_nil]
    refine List.map_snd_zip _ _ ?_
    rw [hlentake, hlenrange]
  · rw [List.drop_append_of_le_length (by rw [hlenzip])]
    rw [List.drop_eq_nil_of_le (by rw [hlenzip]), List.nil_append]
    rfl

theorem worker_farm_issues_each_index_once_witness :
    2 ≤ 3 ∧ 3 ≤ 6 ∧ 2 + (3 - 1) ≤ [2, 1, 1, 2].length ∧
    ((FarmModel.workerFarmRun 3 2 [2, 1, 1, 2]).take 2
        = ([2, 1, 1, 2].take 2).zip ((List.range 2).map Int.ofNat) ∧
     ((FarmModel.workerFarmRun 3 2 [2, 1, 1, 2]).filter (fun p => p.2 ≠ -1)).map Prod.snd
        = (List.range 2).map Int.ofNat ∧
     (FarmModel.workerFarmRun 3 2 [2, 1, 1, 2]).drop 2
        = (([2, 1, 1, 2].drop 2).take (3 - 1)).map (fun w => (w, (-1 : Int)))) :=
  ⟨by decide, by decide, by decide,
    worker_farm_issues_each_index_once 3 2 [2, 1, 1, 2] (by decide) (by decide) (by decide)⟩

/-- **C7.** A `worker_farm` call with a core count outside `[2,6]`, and a
spawn (`loki_spawn` / `spawn_prep`) with more than 5 arguments, abort the
calling core via a failed assertion (modelled as `none`, the abort outcome
of the guard; no recoverable-error value exists). -/
theorem malformed_config_asserts_abort (cores argc : Nat) :
    (cores < 2 ∨ 6 < cores → AssertModel.worker_farm_entry cores = none) ∧
    (5 < argc →
      AssertModel.loki_spawn_entry argc = none ∧ AssertModel.spawn_prep_entry argc = none) := by
  constructor
  · intro h
    unfold AssertModel.worker_farm_entry
    rcases h with h | h
    · rw [if_neg (by omega)]
    · rw [if_pos (by omega), if_neg (by omega)]
  · intro h
    unfold AssertModel.loki_spawn_entry AssertModel.spawn_prep_entry
    rw [if_neg (by omega)]
    exact ⟨rfl, rfl⟩

theorem malformed_config_asserts_abort_witness :
    AssertModel.worker_farm_entry 7 = none ∧
    (AssertModel.loki_spawn_entry 6 = none ∧ AssertModel.spawn_prep_entry 6 = none) :=
  ⟨(malformed_config_asserts_abort 7 6).1 (by decide),
    (malformed_config_asserts_abort 7 6).2 (by decide)⟩

/-- **C9.** For every on-chip starting core id (`make_unique_core_id` of a
compute tile `tile_id x y`, `x, y ∈ [1,4]`, and position `c0 < 8`) and
every index `k` keeping the group on-chip, `group_core_id` returns the id
of the `k`-th member of the contiguous group: its linear position (global
tile number times `CORES_PER_TILE` plus core position) is exactly `k`
greater than that of the first member, wrapping across tile boundaries,
and `group_core_index` recovers `k` from the member id. -/
theorem group_core_id_linear_inverse (x y c0 k : Nat)
    (hx1 : 1 ≤ x) (hx4 : x ≤ 4) (hy1 : 1 ≤ y) (hy4 : y ≤ 4) (hc : c0 < 8)
    (hchip : IdsModel.linearPos (IdsModel.make_unique_core_id (IdsModel.tile_id x y) c0)
        + k < 128) :
    IdsModel.linearPos (IdsModel.group_core_id
          (IdsModel.make_unique_core_id (IdsModel.tile_id x y) c0) k)
        = IdsModel.linearPos (IdsModel.make_unique_core_id (IdsModel.tile_id x y) c0) + k ∧
    IdsModel.group_core_index (IdsModel.make_unique_core_id (IdsModel.tile_id x y) c0)
        (IdsModel.group_core_id (IdsModel.make_unique_core_id (IdsModel.tile_id x y) c0) k)
        = k := by
  simp only [IdsModel.linearPos, IdsModel.group_core_id, IdsModel.group_core_index,
    IdsModel.make_unique_core_id, IdsModel.tile_id, IdsModel.int2tile, IdsModel.tile2int,
    IdsModel.get_unique_core_id_core, IdsModel.get_unique_core_id_tile,
    IdsModel.CPT, IdsModel.COLS] at hchip ⊢
  have hA : ((x*8+y)*16 + c0) / 16 = x*8 + y := by omega
  have hB : ((x*8+y)*16 + c0) % 8 = c0 := by omega
  rw [hA, hB] at hchip ⊢
  have hC : (x*8+y) % 8 = y := by omega
  have hD : (x*8+y) / 8 = x := by omega
  rw [hC, hD] at hchip ⊢
  split_ifs with h
  · have hE : ((x*8+y)*16 + (c0 + k)) / 16 = x*8+y := by omega
    have hF : ((x*8+y)*16 + (c0 + k)) % 8 = c0 + k := by omega
    rw [hE, hF, hC, hD]
    omega
  · have hqr : (k+c0)/8*8 + (c0+k)%8 = c0 + k := by omega
    have hrlt : (c0+k)%8 < 8 := by omega
    set q := (k+c0)/8 with hqdef
    set r := (c0+k)%8 with hrdef
    set v := (y-1)*4 + (x-1) + q with hvdef
    have hv16 : v < 16 := by omega
    have h4b : v/4*4 + v%4 = v := by omega
    have h4a : v % 4 < 4 := by omega
    have h4c : v / 4 < 4 := by omega
    set M := (v%4+1)*8 + (v/4+1) with hMdef
    have hMdiv : (M*16 + r)/16 = M := by omega
    have hMmod : (M*16 + r)%8 = r := by omega
    rw [hMdiv, hMmod]
    have hM8 : M % 8 = v/4+1 := by omega
    have hMdiv8 : M / 8 = v%4+1 := by omega
    rw [hM8, hMdiv8]
    omega

theorem group_core_id_linear_inverse_witness :
    1 ≤ 1 ∧ 1 ≤ 4 ∧ 1 ≤ 2 ∧ 2 ≤ 4 ∧ 7 < 8 ∧
    IdsModel.linearPos (IdsModel.make_unique_core_id (IdsModel.tile_id 1 2) 7) + 3 < 128 ∧
    (IdsModel.linearPos (IdsModel.group_core_id
          (IdsModel.make_unique_core_id (IdsModel.tile_id 1 2) 7) 3)
        = IdsModel.linearPos (IdsModel.make_unique_core_id (IdsModel.tile_id 1 2) 7) + 3 ∧
     IdsModel.group_core_index (IdsModel.make_unique_core_id (IdsModel.tile_id 1 2) 7)
        (IdsModel.group_core_id (IdsModel.make_unique_core_id (IdsModel.tile_id 1 2) 7) 3)
        = 3) :=
  ⟨by decide, by decide, by decide, by decide, by decide, by decide,
    group_core_id_linear_inverse 1 2 7 3 (by decide) (by decide) (by decide) (by decide)
      (by decide) (by decide)⟩

/-!
## Remote execution (`loki_remote_execute`, `refresh_args_before_call`,
`loki_channel_invalidate_data`)

We model the memory-visible behaviour at the *target* core as an event
trace: cache-line invalidations followed by the invocation of `func` on
the argument pointer.  Addresses are byte addresses; a cache line is 32
bytes.
-/

namespace RemoteModel

/-- A memory-visible event at the target core. -/
inductive MemEvent where
  | invalidateLine (addr : Nat)
  | callFunc (args : Nat)
deriving DecidableEq

/-- The loop of `loki_channel_invalidate_data` (channel_io.h):
`cacheLine = address & ~0x1f; while (cacheLine < address + size) { invalidate; cacheLine += 32; }`. -/
def invalidateLoop (endAddr cacheLine : Nat) : List MemEvent :=
  if cacheLine < endAddr then
    MemEvent.invalidateLine cacheLine :: invalidateLoop endAddr (cacheLine + 32)
  else []
termination_by endAddr - cacheLine

/-- `loki_channel_invalidate_data(channel, address, size)` (channel_io.h):
invalidate every cache line overlapping `[address, address + size)`
(`address & ~0x1f` is `address - address % 32`). -/
def loki_channel_invalidate_data (address size : Nat) : List MemEvent :=
  invalidateLoop (address + size) (address - address % 32)

/-- `refresh_args_before_call` (lokilib.c): invalidate the argument region,
then call `func(args)`. -/
def refresh_args_before_call (args arg_size : Nat) : List MemEvent :=
  loki_channel_invalidate_data args arg_size ++ [MemEvent.callFunc args]

/-- `loki_remote_execute(tile, core, func, args, arg_size)` (lokilib.c),
as the event trace observed at the target core: a same-core call invokes
`func(args)` directly; a same-tile call makes the target fetch `func` with
`r13 = args` (coherent memory, no invalidation); a cross-tile call makes
the target run `refresh_args_before_call`. -/
def loki_remote_execute (selfTile selfCore tile core args arg_size : Nat) : List MemEvent :=
  if tile = selfTile ∧ core = selfCore then [MemEvent.callFunc args]
  else if tile = selfTile then [MemEvent.callFunc args]
  else refresh_args_before_call args arg_size

theorem invalidateLoop_covers (endAddr : Nat) :
    ∀ d start a, a - start = d → start ≤ a → a < endAddr → start % 32 = 0 →
      ∃ line, MemEvent.invalidateLine line ∈ invalidateLoop endAddr start ∧
        line % 32 = 0 ∧ line ≤ a ∧ a < line + 32 := by
  intro d
  induction d using Nat.strong_induction_on with
  | _ d ih =>
    intro start a hd h1 h2 h3
    have hunf : invalidateLoop endAddr start
        = MemEvent.invalidateLine start :: invalidateLoop endAddr (start + 32) := by
      rw [invalidateLoop]
      rw [if_pos (by omega)]
    by_cases hnear : a < start + 32
    · refine ⟨start, ?_, h3, h1, hnear⟩
      rw [hunf]
      exact List.mem_cons_self _ _
    · have hrec := ih (a - (start + 32)) (by omega) (start + 32) a rfl (by omega) h2 (by omega)
      rcases hrec with ⟨line, hmem, hal, hle, hlt⟩
      refine ⟨line, ?_, hal, hle, hlt⟩
      rw [hunf]
      exact List.mem_cons_of_mem _ hmem

theorem invalidateLoop_only_invalidates (endAddr : Nat) :
    ∀ d start, endAddr - start = d →
      ∀ e ∈ invalidateLoop endAddr start, ∃ line, e = MemEvent.invalidateLine line := by
  intro d
  induction d using Nat.strong_induction_on with
  | _ d ih =>
    intro start hd e he
    by_cases hlt : start < endAddr
    · rw [invalidateLoop, if_pos hlt] at he
      rcases List.mem_cons.1 he with rfl | hmem
      · exact ⟨start, rfl⟩
      · exact ih (endAddr - (start + 32)) (by omega) (start + 32) rfl e hmem
    · rw [invalidateLoop, if_neg hlt] at he
      simp at he

end RemoteModel

/-- **C8.** For a cross-tile `loki_remote_execute(tile, core, func, args,
arg_size)`, the target core invalidates its cached view of the argument
region `[args, args + arg_size)` before reading it: the target trace is
`refresh_args_before_call`, i.e. cache-line invalidations covering every
byte of the region (and nothing else) followed by the single invocation of
`func` on the arguments.  A same-core call instead invokes `func(args)`
directly, with no invalidation. -/
theorem remote_execute_invalidates_before_call
    (selfTile selfCore tile core args arg_size : Nat) :
    (tile ≠ selfTile →
      RemoteModel.loki_remote_execute selfTile selfCore tile core args arg_size
        = RemoteModel.loki_channel_invalidate_data args arg_size
            ++ [RemoteModel.MemEvent.callFunc args] ∧
      (∀ a, args ≤ a → a < args + arg_size →
        ∃ line, RemoteModel.MemEvent.invalidateLine line
            ∈ RemoteModel.loki_channel_invalidate_data args arg_size ∧
          line % 32 = 0 ∧ line ≤ a ∧ a < line + 32) ∧
      (∀ e ∈ RemoteModel.loki_channel_invalidate_data args arg_size,
        ∃ line, e = RemoteModel.MemEvent.invalidateLine line)) ∧
    (tile = selfTile → core = selfCore →
      RemoteModel.loki_remote_execute selfTile selfCore tile core args arg_size
        = [RemoteModel.MemEvent.callFunc args]) := by
  constructor
  · intro hne
    refine ⟨?_, ?_, ?_⟩
    · unfold RemoteModel.loki_remote_execute
      rw [if_neg (by intro hcontra; exact hne hcontra.1), if_neg hne]
      rfl
    · intro a ha1 ha2
      refine RemoteModel.invalidateLoop_covers (args + arg_size)
        (a - (args - args % 32)) (args - args % 32) a rfl ?_ ha2 ?_
      · omega
      · omega
    · intro e he
      exact RemoteModel.invalidateLoop_only_invalidates (args + arg_size)
        ((args + arg_size) - (args - args % 32)) (args - args % 32) rfl e he
  · intro h1 h2
    unfold RemoteModel.loki_remote_execute
    rw [if_pos ⟨h1, h2⟩]

theorem remote_execute_invalidates_before_call_witness :
    ((1 : Nat) ≠ 0 →
      RemoteModel.loki_remote_execute 0 0 1 2 100 40
        = RemoteModel.loki_channel_invalidate_data 100 40
            ++ [RemoteModel.MemEvent.callFunc 100] ∧
      (∀ a, 100 ≤ a → a < 100 + 40 →
        ∃ line, RemoteModel.MemEvent.invalidateLine line
            ∈ RemoteModel.loki_channel_invalidate_data 100 40 ∧
          line % 32 = 0 ∧ line ≤ a ∧ a < line + 32) ∧
      (∀ e ∈ RemoteModel.loki_channel_invalidate_data 100 40,
        ∃ line, e = RemoteModel.MemEvent.invalidateLine line)) ∧
    ((1 : Nat) = 0 → (2 : Nat) = 0 →
      RemoteModel.loki_remote_execute 0 0 1 2 100 40
        = [RemoteModel.MemEvent.callFunc 100]) :=
  remote_execute_invalidates_before_call 0 0 1 2 100 40

/-!
## Cache-line-exclusive allocation (`loki_malloc` and friends)

`loki_round_up_cache_line` and the rounding logic of `loki_malloc` are
taken from lokilib.c.  The underlying `malloc` is not part of this
repository. -/

namespace AllocModel

/-- `loki_round_up_cache_line` (lokilib.c): round up to the next multiple
of the 32-byte cache line (`val & 0x1F` is `val % 32`; `val & ~0x1F` is
`val - val % 32`). -/
def loki_round_up_cache_line (val : Nat) : Nat :=
  if val % 32 ≠ 0 then (val - val % 32) + 32 else val

/-- Modelled from the spec: the toolchain `malloc` that `loki_malloc`
calls after aligning `__heap_ptr` is not in this repository; per the spec
(§6 raw-allocation collaborator) it hands out fresh heap memory at the
current heap pointer, advancing it — a bump allocator.  State is the heap
pointer; result is (returned pointer, new heap pointer). -/
def malloc (heapPtr size : Nat) : Nat × Nat :=
  (heapPtr, heapPtr + size)

/-- `loki_malloc` (lokilib.c): round the heap pointer up to a cache-line
boundary, round the size up to whole cache lines, then `malloc`. -/
def loki_malloc (heapPtr size : Nat) : Nat × Nat :=
  malloc (loki_round_up_cache_line heapPtr) (loki_round_up_cache_line size)

/-- `loki_calloc` (lokilib.c): allocate via `loki_malloc(num * size)`
(the zeroing is value-level and irrelevant to placement). -/
def loki_calloc (heapPtr num size : Nat) : Nat × Nat :=
  loki_malloc heapPtr (num * size)

/-- `loki_realloc` (lokilib.c): `size = 0` frees and returns NULL;
otherwise allocate via `loki_malloc(size)` (then copy and free). -/
def loki_realloc (heapPtr size : Nat) : Option Nat × Nat :=
  if size = 0 then (none, heapPtr)
  else (some (loki_malloc heapPtr size).1, (loki_malloc heapPtr size).2)

/-- A sequence of `loki_malloc` calls: returns the list of
(pointer, rounded size) blocks and the final heap pointer. -/
def allocRun (heapPtr : Nat) : List Nat → List (Nat × Nat) × Nat
  | [] => ([], heapPtr)
  | size :: rest =>
    ((loki_malloc heapPtr size).1, loki_round_up_cache_line size)
      :: (allocRun (loki_malloc heapPtr size).2 rest).1
    |> fun blocks => (blocks, (allocRun (loki_malloc heapPtr size).2 rest).2)

theorem round_up_mul (val : Nat) : loki_round_up_cache_line val % 32 = 0 := by
  unfold loki_round_up_cache_line
  split_ifs with h
  · omega
  · omega

theorem round_up_ge (val : Nat) : val ≤ loki_round_up_cache_line val := by
  unfold loki_round_up_cache_line
  split_ifs with h
  · omega
  · omega

theorem allocRun_lower (sizes : List Nat) :
    ∀ heapPtr, ∀ blk ∈ (allocRun heapPtr sizes).1, heapPtr ≤ blk.1 := by
  induction sizes with
  | nil =>
    intro heapPtr blk hmem
    simp [allocRun] at hmem
  | cons s rest ih =>
    intro heapPtr blk hmem
    simp only [allocRun] at hmem
    rcases List.mem_cons.1 hmem with rfl | hmem'
    · show heapPtr ≤ (loki_malloc heapPtr s).1
      unfold loki_malloc malloc
      exact round_up_ge heapPtr
    · have h1 := ih (loki_malloc heapPtr s).2 blk hmem'
      have h2 : heapPtr ≤ (loki_malloc heapPtr s).2 := by
        unfold loki_malloc malloc
        have := round_up_ge heapPtr
        simp only []
        omega
      omega

theorem allocRun_aligned (sizes : List Nat) :
    ∀ heapPtr, ∀ blk ∈ (allocRun heapPtr sizes).1, blk.1 % 32 = 0 ∧ blk.2 % 32 = 0 := by
  induction sizes with
  | nil =>
    intro heapPtr blk hmem
    simp [allocRun] at hmem
  | cons s rest ih =>
    intro heapPtr blk hmem
    simp only [allocRun] at hmem
    rcases List.mem_cons.1 hmem with rfl | hmem'
    · constructor
      · show (loki_malloc heapPtr s).1 % 32 = 0
        unfold loki_malloc malloc
        exact round_up_mul heapPtr
      · exact round_up_mul s
    · exact ih (loki_malloc heapPtr s).2 blk hmem'

/-- Successive allocations are laid out in order: each block ends at or
before the next begins. -/
theorem allocRun_ordered (sizes : List Nat) :
    ∀ heapPtr, List.Pairwise (fun b1 b2 => b1.1 + b1.2 ≤ b2.1) (allocRun heapPtr sizes).1 := by
  induction sizes with
  | nil =>
    intro heapPtr
    simp [allocRun]
  | cons s rest ih =>
    intro heapPtr
    simp only [allocRun]
    refine List.Pairwise.cons ?_ (ih (loki_malloc heapPtr s).2)
    intro blk hmem
    have h1 := allocRun_lower rest (loki_malloc heapPtr s).2 blk hmem
    have h2 : (loki_malloc heapPtr s).1 + loki_round_up_cache_line s
        = (loki_malloc heapPtr s).2 := by
      unfold loki_malloc malloc
      rfl
    omega

end AllocModel

/-- **C10.** (spec-modelled `malloc`, see `AllocModel.malloc`.)  Every
allocation produced by `loki_malloc` starts at a cache-line (32-byte)
boundary and occupies a whole number of cache lines at least as large as
the request; `loki_calloc` and `loki_realloc` (for nonzero sizes) allocate
through `loki_malloc`; and across any sequence of allocations, bytes of
two distinct allocations never lie on the same cache line. -/
theorem loki_malloc_cache_line_exclusive (hp size num i j : Nat) (sizes : List Nat)
    (hij : i < j) (hj : j < ((AllocModel.allocRun hp sizes).1).length) :
    (AllocModel.loki_malloc hp size).1 % 32 = 0 ∧
    (AllocModel.loki_round_up_cache_line size % 32 = 0 ∧
      size ≤ AllocModel.loki_round_up_cache_line size) ∧
    AllocModel.loki_calloc hp num size = AllocModel.loki_malloc hp (num * size) ∧
    (size ≠ 0 → AllocModel.loki_realloc hp size
      = (some (AllocModel.loki_malloc hp size).1, (AllocModel.loki_malloc hp size).2)) ∧
    (∀ a b,
      ((AllocModel.allocRun hp sizes).1.get ⟨i, by omega⟩).1 ≤ a →
      a < ((AllocModel.allocRun hp sizes).1.get ⟨i, by omega⟩).1
          + ((AllocModel.allocRun hp sizes).1.get ⟨i, by omega⟩).2 →
      ((AllocModel.allocRun hp sizes).1.get ⟨j, hj⟩).1 ≤ b →
      b < ((AllocModel.allocRun hp sizes).1.get ⟨j, hj⟩).1
          + ((AllocModel.allocRun hp sizes).1.get ⟨j, hj⟩).2 →
      a / 32 ≠ b / 32) := by
  refine ⟨?_, ⟨AllocModel.round_up_mul size, AllocModel.round_up_ge size⟩, rfl, ?_, ?_⟩
  · show (AllocModel.malloc (AllocModel.loki_round_up_cache_line hp) _).1 % 32 = 0
    exact AllocModel.round_up_mul hp
  · intro h
    unfold AllocModel.loki_realloc
    rw [if_neg h]
  · intro a b ha1 ha2 hb1 hb2
    have hpair := AllocModel.allocRun_ordered sizes hp
    have hord := (List.pairwise_iff_get.1 hpair) ⟨i, by omega⟩ ⟨j, hj⟩ (by exact hij)
    have hal_i := AllocModel.allocRun_aligned sizes hp
      ((AllocModel.allocRun hp sizes).1.get ⟨i, by omega⟩) (List.get_mem _ _ _)
    have hal_j := AllocModel.allocRun_aligned sizes hp
      ((AllocModel.allocRun hp sizes).1.get ⟨j, hj⟩) (List.get_mem _ _ _)
    omega

theorem loki_malloc_cache_line_exclusive_witness :
    (0 : Nat) < 1 ∧ 1 < ((AllocModel.allocRun 5 [10, 40]).1).length ∧
    ((AllocModel.loki_malloc 5 7).1 % 32 = 0 ∧
     (AllocModel.loki_round_up_cache_line 7 % 32 = 0 ∧
       7 ≤ AllocModel.loki_round_up_cache_line 7) ∧
     AllocModel.loki_calloc 5 3 7 = AllocModel.loki_malloc 5 (3 * 7) ∧
     ((7 : Nat) ≠ 0 → AllocModel.loki_realloc 5 7
       = (some (AllocModel.loki_malloc 5 7).1, (AllocModel.loki_malloc 5 7).2)) ∧
     (∀ a b,
       ((AllocModel.allocRun 5 [10, 40]).1.get ⟨0, by decide⟩).1 ≤ a →
       a < ((AllocModel.allocRun 5 [10, 40]).1.get ⟨0, by decide⟩).1
           + ((AllocModel.allocRun 5 [10, 40]).1.get ⟨0, by decide⟩).2 →
       ((AllocModel.allocRun 5 [10, 40]).1.get ⟨1, by decide⟩).1 ≤ b →
       b < ((AllocModel.allocRun 5 [10, 40]).1.get ⟨1, by decide⟩).1
           + ((AllocModel.allocRun 5 [10, 40]).1.get ⟨1, by decide⟩).2 →
       a / 32 ≠ b / 32)) :=
  ⟨by decide, by decide,
    loki_malloc_cache_line_exclusive 5 7 3 0 1 [10, 40] (by decide) (by decide)⟩

/-!
## Data-driven pipeline (`dd_pipeline_stage`, `dd_pipeline_loop`,
`end_parallel_section`)

Stage 0 drives the pipeline: it calls its task on `arg = 0, 1, 2, …` until
the task returns the reserved end-of-stream token, then sends the token
once to its successor and stops (the task itself emits the data values).
Every later stage receives values, applies its task and forwards the
result, until the token arrives; the token is forwarded once and the loop
ends.  The stage with no successor calls `end_parallel_section` after its
loop.  `emitted` below is the data stream stage 0's task produced, and
`(outputs, observed, ends)` are a stage's forwarded values, its sentinel
observations, and its `end_parallel_section` calls.
-/

namespace DDModel

/-- A non-first stage of `dd_pipeline_stage` running on one input stream.
`haveSucc` is `stage < config->cores - 1`.  An exhausted input means the
stage is blocked forever in `loki_receive` — no further events occur. -/
def ddStageRun (haveSucc : Bool) (f : Int → Int) (tok : Int) : List Int → List Int × Nat × Nat
  | [] => ([], 0, 0)
  | a :: rest =>
    if a = tok then
      ((if haveSucc then [tok] else []), 1, if haveSucc then 0 else 1)
    else
      ((if haveSucc then f a :: (ddStageRun haveSucc f tok rest).1
        else (ddStageRun haveSucc f tok rest).1),
       (ddStageRun haveSucc f tok rest).2.1,
       (ddStageRun haveSucc f tok rest).2.2)

/-- `end_parallel_section` calls made by stage 0 (`dd_pipeline_stage` with
`stage == 0`): only when it has no successor, i.e. a one-core pipeline. -/
def ddStage0Ends (cores : Nat) : Nat := if 1 < cores then 0 else 1

/-- The input stream of each stage: stage 1 receives what stage 0's task
emitted followed by the token; each later stage receives the previous
stage's outputs. -/
def stageInput (cores : Nat) (fs : Nat → Int → Int) (tok : Int) (emitted : List Int) :
    Nat → List Int
  | 0 => []
  | 1 => emitted ++ [tok]
  | s+2 => (ddStageRun (decide (s+1 < cores-1)) (fs (s+1)) tok
      (stageInput cores fs tok emitted (s+1))).1

theorem ddStageRun_on_clean (f : Int → Int) (tok : Int) :
    ∀ pre, tok ∉ pre →
      (ddStageRun true f tok (pre ++ [tok]) = (pre.map f ++ [tok], 1, 0) ∧
       ddStageRun false f tok (pre ++ [tok]) = ([], 1, 1)) := by
  intro pre
  induction pre with
  | nil =>
    intro hmem
    constructor
    · simp [ddStageRun]
    · simp [ddStageRun]
  | cons x rest ih =>
    intro hmem
    have hx : x ≠ tok := by
      intro hcontra
      exact hmem (by simp [hcontra])
    have hrest : tok ∉ rest := fun hcontra => hmem (by simp [hcontra])
    rcases ih hrest with ⟨ih1, ih2⟩
    constructor
    · show ddStageRun true f tok ((x :: rest) ++ [tok]) = _
      rw [List.cons_append]
      simp only [ddStageRun, if_neg hx, ih1, if_pos]
      simp
    · show ddStageRun false f tok ((x :: rest) ++ [tok]) = _
      rw [List.cons_append]
      simp only [ddStageRun, if_neg hx, ih2]
      simp

theorem stageInput_shape (cores : Nat) (fs : Nat → Int → Int) (tok : Int)
    (emitted : List Int) (hemit : tok ∉ emitted) (hfs : ∀ s x, fs s x ≠ tok) :
    ∀ s, 1 ≤ s → s < cores →
      ∃ pre, stageInput cores fs tok emitted s = pre ++ [tok] ∧ tok ∉ pre := by
  intro s
  induction s with
  | zero =>
    intro h1 _
    omega
  | succ m ih =>
    intro h1 hm
    by_cases hm1 : m = 0
    · subst hm1
      exact ⟨emitted, rfl, hemit⟩
    · obtain ⟨m', rfl⟩ : ∃ m', m = m' + 1 := ⟨m - 1, by omega⟩
      rcases ih (by omega) (by omega) with ⟨pre, hpre, hmem⟩
      have hsucc : decide (m' + 1 < cores - 1) = true := by
        rw [decide_eq_true_eq]
        omega
      refine ⟨pre.map (fs (m' + 1)), ?_, ?_⟩
      · show (ddStageRun (decide (m' + 1 < cores-1)) (fs (m' + 1)) tok
            (stageInput cores fs tok emitted (m' + 1))).1 = _
        rw [hsucc, hpre, (ddStageRun_on_clean (fs (m' + 1)) tok pre hmem).1]
      · intro hcontra
        rcases List.mem_map.1 hcontra with ⟨x, _, hx⟩
        exact hfs (m' + 1) x hx
end DDModel

/-- **C5.** In every data-driven pipeline run with `cores ≥ 2` whose
stage-0 task eventually produces the reserved end-of-stream token
(`emitted` being the data it emitted before that) and whose later-stage
tasks never produce the token as data, the final stage observes the
sentinel exactly once, and `end_parallel_section` is raised exactly once
per run: by the stage that forwards no further (stage `cores - 1`), and by
no other stage (including stage 0). -/
theorem dd_pipeline_sentinel_and_end_once (cores : Nat) (fs : Nat → Int → Int) (tok : Int)
    (emitted : List Int) (hc : 2 ≤ cores) (hemit : tok ∉ emitted)
    (hfs : ∀ s x, fs s x ≠ tok) :
    (DDModel.ddStageRun false (fs (cores-1)) tok
        (DDModel.stageInput cores fs tok emitted (cores-1))).2.1 = 1 ∧
    (∀ s, 1 ≤ s → s < cores →
      (DDModel.ddStageRun (decide (s < cores-1)) (fs s) tok
          (DDModel.stageInput cores fs tok emitted s)).2.2
        = if s = cores-1 then 1 else 0) ∧
    DDModel.ddStage0Ends cores = 0 := by
  have hshape := DDModel.stageInput_shape cores fs tok emitted hemit hfs
  refine ⟨?_, ?_, ?_⟩
  · rcases hshape (cores-1) (by omega) (by omega) with ⟨pre, hpre, hmem⟩
    rw [hpre, (DDModel.ddStageRun_on_clean (fs (cores-1)) tok pre hmem).2]
  · intro s h1 hs
    rcases hshape s h1 hs with ⟨pre, hpre, hmem⟩
    rw [hpre]
    by_cases hlast : s = cores - 1
    · have hdec : decide (s < cores - 1) = false := by
        rw [decide_eq_false_iff_not]
        omega
      rw [hdec, (DDModel.ddStageRun_on_clean (fs s) tok pre hmem).2, if_pos hlast]
    · have hdec : decide (s < cores - 1) = true := by
        rw [decide_eq_true_eq]
        omega
      rw [hdec, (DDModel.ddStageRun_on_clean (fs s) tok pre hmem).1, if_neg hlast]
  · unfold DDModel.ddStage0Ends
    rw [if_pos (by omega)]

theorem dd_pipeline_sentinel_and_end_once_witness :
    2 ≤ 3 ∧ (-1 : Int) ∉ ([0, 2, 7] : List Int) ∧
    ((DDModel.ddStageRun false ((fun _ x => x * x) (3-1)) (-1)
        (DDModel.stageInput 3 (fun _ x => x * x) (-1) [0, 2, 7] (3-1))).2.1 = 1 ∧
     (∀ s, 1 ≤ s → s < 3 →
       (DDModel.ddStageRun (decide (s < 3-1)) ((fun _ x => x * x) s) (-1)
           (DDModel.stageInput 3 (fun _ x => x * x) (-1) [0, 2, 7] s)).2.2
         = if s = 3-1 then 1 else 0) ∧
     DDModel.ddStage0Ends 3 = 0) :=
  ⟨by decide, by decide,
    dd_pipeline_sentinel_and_end_once 3 (fun _ x => x * x) (-1) [0, 2, 7]
      (by decide) (by decide)
      (by intro s x h; dsimp only at h; have := mul_self_nonneg x; omega)⟩

namespace LokiModel

/-!
## Token pipeline (`pipeline_stage`, `pipeline_loop`)

`pipeline_stage` connects channel-map entry 8 to the next stage (or, for
the final stage, back to stage 0) and then, inside the loop, sends the
per-iteration token with `loki_send_token(3)` — on channel-map entry **3**.
Entry 3 of stage 0 still holds the all-cores-except-0 multicast installed
by `pipeline_loop` to broadcast the config pointer; stages ≥ 1 never
configure entry 3 at all (modelled as an empty multicast).  Only the final
ring token (`loki_send_token(8)`) travels over the connection made for the
successor.  The model below reproduces this behaviour faithfully; buffer
`s` is stage `s`'s input register r3.
-/

namespace PipeModel

/-- Program of `pipeline_stage(config, s)` for a `c`-stage pipeline with
`iters` iterations, per the actual code (see the section comment for where
entry-3 sends go). -/
def pipeProg (c iters s : Nat) : List Act :=
  ((List.range iters).map (fun i =>
    (if 0 < s then [Act.recv s] else []) ++ [Act.exec i] ++
    (if s < c - 1 then
      [if s = 0 then Act.sendM ((List.range (c-1)).map (fun d => d+1)) else Act.sendM []]
     else []))).flatten
  ++ (if s = c - 1 then [Act.send 0] else [])
  ++ (if s = 0 then [Act.recv 0] else [])

/-- A reachable final state of the 3-stage, 1-iteration pipeline in which
stage 0 has completed `pipeline_stage` (returned) while stage 1 has
executed no iteration at all: stage 2's gating token came from stage 0's
entry-3 broadcast, not from stage 1. -/
def cex1 : Sys := ⟨Function.update sysInit.status 0 (some 0), sysInit.tokens⟩

def cex2 : Sys := ⟨Function.update cex1.status 0 (some 1), cex1.tokens⟩

def cex3 : Sys :=
  ⟨Function.update cex2.status 0 (some 2),
    fun b => cex2.tokens b + (((List.range 2).map (fun d => d+1)).count b)⟩

def cex4 : Sys := ⟨Function.update cex3.status 2 (some 0), cex3.tokens⟩

def cex5 : Sys :=
  ⟨Function.update cex4.status 2 (some 1),
    Function.update cex4.tokens 2 (cex4.tokens 2 - 1)⟩

def cex6 : Sys := ⟨Function.update cex5.status 2 (some 2), cex5.tokens⟩

def cex7 : Sys :=
  ⟨Function.update cex6.status 2 (some 3),
    Function.update cex6.tokens 0 (cex6.tokens 0 + 1)⟩

def cex8 : Sys := ⟨Function.update cex7.status 1 (some 0), cex7.tokens⟩

def cexFinal : Sys :=
  ⟨Function.update cex8.status 0 (some 3),
    Function.update cex8.tokens 0 (cex8.tokens 0 - 1)⟩

theorem cex_reach : Reach 3 (pipeProg 3 1) cexFinal := by
  have h1 : Step 3 (pipeProg 3 1) sysInit cex1 := Step.enter sysInit 0 (by decide) rfl
  have h2 : Step 3 (pipeProg 3 1) cex1 cex2 := Step.exec cex1 0 0 0 (by decide) rfl (by decide)
  have h3 : Step 3 (pipeProg 3 1) cex2 cex3 :=
    Step.sendM cex2 0 1 ((List.range 2).map (fun d => d+1)) (by decide) rfl (by decide)
  have h4 : Step 3 (pipeProg 3 1) cex3 cex4 := Step.enter cex3 2 (by decide) rfl
  have h5 : Step 3 (pipeProg 3 1) cex4 cex5 :=
    Step.recv cex4 2 0 2 (by decide) rfl (by decide) (by decide)
  have h6 : Step 3 (pipeProg 3 1) cex5 cex6 := Step.exec cex5 2 1 0 (by decide) rfl (by decide)
  have h7 : Step 3 (pipeProg 3 1) cex6 cex7 := Step.send cex6 2 2 0 (by decide) rfl (by decide)
  have h8 : Step 3 (pipeProg 3 1) cex7 cex8 := Step.enter cex7 1 (by decide) rfl
  have h9 : Step 3 (pipeProg 3 1) cex8 cexFinal :=
    Step.recv cex8 0 2 0 (by decide) rfl (by decide) (by decide)
  exact Relation.ReflTransGen.head h1 (Relation.ReflTransGen.head h2
    (Relation.ReflTransGen.head h3 (Relation.ReflTransGen.head h4
      (Relation.ReflTransGen.head h5 (Relation.ReflTransGen.head h6
        (Relation.ReflTransGen.head h7 (Relation.ReflTransGen.head h8
          (Relation.ReflTransGen.head h9 Relation.ReflTransGen.refl))))))))

end PipeModel

/-- **C6 counterexample.** In the faithful model of `pipeline_stage` (with
3 stages and 1 iteration, the shape of the spec's 3-stage scenario), a
reachable state exists in which stage 0's `pipeline_stage(config, 0)` call
has returned — it consumed the ring token sent on entry 8 by the final
stage — while stage 1 has joined the pipeline but executed none of its
`config->iterations = 1` iterations.  Stage 2 was gated by stage 0's
entry-3 broadcast instead of by stage 1, so the pipeline had **not**
drained when stage 0 returned, contradicting the claim.  (The in-loop
successor token is sent on channel-map entry 3, which is never connected
to the successor; the connection made for the successor is entry 8, used
only for the final ring token — compare `dd_pipeline_stage`, which sends
on entry 8.) -/
theorem pipeline_stage0_returns_before_drain :
    Reach 3 (PipeModel.pipeProg 3 1) PipeModel.cexFinal ∧
    PipeModel.cexFinal.status 0 = some ((PipeModel.pipeProg 3 1 0).length) ∧
    ent PipeModel.cexFinal 1 ∧
    execCount (fired (PipeModel.pipeProg 3 1) PipeModel.cexFinal 1) = 0 ∧
    execCount (PipeModel.pipeProg 3 1 1) = 1 := by
  refine ⟨PipeModel.cex_reach, by decide, ?_, by decide, by decide⟩
  intro hcontra
  simp [PipeModel.cexFinal, PipeModel.cex8, Function.update] at hcontra

end LokiModel

namespace LokiModel

/-!
## Hierarchical barrier (`loki_sync`, `loki_sync_ex`, `loki_sync_tiles`)

`loki_sync(n) = loki_sync_ex(n, tile_id(1,1))`, so tiles are numbered
relative to the first tile: the participant with global index `g`
(`0 ≤ g < n`) sits on tile `t = g / 8` at position `p = g % 8`
(`CORES_PER_TILE = 8`), and `cores_this_tile` is `min (n - 8t) 8`.

Within a tile (`loki_sync_ex`): every core except the tile's last waits
for a token on `CH_REGISTER_3`; every core except position 0 then sends a
token to position `p - 1` on `CH_REGISTER_3` and waits for the release on
`CH_REGISTER_3`.  Position 0 instead runs `loki_sync_tiles` over
`CH_REGISTER_7` (chain towards tile 0, then tile 0 fans the release out to
every other tile leader), and finally multicasts the in-tile release to
positions `1 … cores_this_tile - 1`.

Buffer numbering: `buf3 g = 2g` is participant `g`'s `r3` input and
`buf7 t = 16t + 1` is tile `t`'s leader's `r7` input (disjoint by parity).
-/

namespace SyncModel

/-- `CH_REGISTER_3` input buffer of participant `g`. -/
def buf3 (g : Nat) : Nat := 2 * g

/-- `CH_REGISTER_7` input buffer of the leader (position 0) of tile `t`. -/
def buf7 (t : Nat) : Nat := 16 * t + 1

/-- `cores_this_tile(n, t, first_tile)` for a participating tile `t`
(tiles numbered relative to the first tile). -/
def ctt (n t : Nat) : Nat := min (n - 8 * t) 8

/-- `num_tiles(n) = (n-1)/CORES_PER_TILE + 1`. -/
def nT (n : Nat) : Nat := (n - 1) / 8 + 1

/-- The in-tile release multicast of `loki_sync_ex`:
`all_cores_except_0(coresThisTile)` at `CH_REGISTER_3`. -/
def relList (n t : Nat) : List Nat := (List.range (ctt n t - 1)).map (fun q => buf3 (8*t + q + 1))

/-- The release loop of `loki_sync_tiles` run by tile 0's leader: a token
to the leader of every tile `1 … num_tiles - 1` on `CH_REGISTER_7`. -/
def fanList (n : Nat) : List Act := (List.range (nT n - 1)).map (fun d => Act.send (buf7 (d + 1)))

/-- `loki_sync_tiles(num_tiles(n))` as run by the leader of tile `t`. -/
def tileSyncProg (n t : Nat) : List Act :=
  if nT n ≤ 1 then []
  else
    (if t < nT n - 1 then [Act.recv (buf7 t)] else []) ++
    (if 0 < t then [Act.send (buf7 (t-1)), Act.recv (buf7 t)] else fanList n)

/-- `loki_sync_ex(n, first_tile)` as run by participant `g` (empty when
`n ≤ 1`, which the code returns on immediately). -/
def syncProg (n g : Nat) : List Act :=
  (if g % 8 < ctt n (g / 8) - 1 then [Act.recv (buf3 g)] else []) ++
  (if 0 < g % 8 then [Act.send (buf3 (g-1)), Act.recv (buf3 g)]
   else tileSyncProg n (g / 8) ++
     (if 1 < ctt n (g / 8) then [Act.sendM (relList n (g / 8))] else []))

/-- Program index of the chain send of a non-leader. -/
def chainIdx (n g : Nat) : Nat := if g % 8 + 1 < ctt n (g / 8) then 1 else 0

/-- Program index of a tile leader's inter-tile chain send (`t ≥ 1`). -/
def sendIdx7 (n t : Nat) : Nat :=
  (if 1 < ctt n t then 1 else 0) + (if t < nT n - 1 then 1 else 0)

/-- Program index of a tile leader's in-tile release multicast. -/
def relIdx (n t : Nat) : Nat := (syncProg n (8*t)).length - 1

/-- Everything before the release multicast in a leader's program. -/
def leaderBody (n t : Nat) : List Act :=
  (if 0 < ctt n t - 1 then [Act.recv (buf3 (8*t))] else []) ++ tileSyncProg n t

theorem sendsTo_nil (ch : Nat) : sendsTo [] ch = 0 := rfl

theorem sendsTo_cons (a : Act) (l : List Act) (ch : Nat) :
    sendsTo (a :: l) ch = a.sendCount ch + sendsTo l ch := by
  simp [sendsTo]

theorem recvCount_nil (ch : Nat) : recvCount [] ch = 0 := rfl

theorem recvCount_cons (a : Act) (l : List Act) (ch : Nat) :
    recvCount (a :: l) ch = (if a = Act.recv ch then 1 else 0) + recvCount l ch := by
  simp only [recvCount, List.count_cons]
  by_cases h : a = Act.recv ch
  · simp [h]
    omega
  · have : ¬((Act.recv ch) == a) := by
      simp only [beq_iff_eq]
      exact fun hh => h hh.symm
    simp [h, this]

theorem buf3_ne_buf7 (g t : Nat) : buf3 g ≠ buf7 t := by
  unfold buf3 buf7
  omega

theorem buf3_inj (a b : Nat) : buf3 a = buf3 b ↔ a = b := by
  unfold buf3
  omega

theorem buf7_inj (a b : Nat) : buf7 a = buf7 b ↔ a = b := by
  unfold buf7
  omega

/-- How many release tokens tile `t`'s leader sends to `buf3 g`. -/
theorem relList_count (n t g : Nat) :
    (relList n t).count (buf3 g) = if 8*t < g ∧ g < 8*t + ctt n t then 1 else 0 := by
  unfold relList
  by_cases h : 8*t < g ∧ g < 8*t + ctt n t
  · rw [if_pos h]
    have hmem : g - 8*t - 1 < ctt n t - 1 := by omega
    have hinj : Function.Injective (fun q => buf3 (8*t + q + 1)) := by
      intro a b hab
      simp only [buf3_inj] at hab
      omega
    have : buf3 g = (fun q => buf3 (8*t + q + 1)) (g - 8*t - 1) := by
      simp only [buf3_inj]
      omega
    rw [this, List.count_map_of_injective _ _ hinj]
    exact List.count_eq_one_of_mem (List.nodup_range _) (List.mem_range.2 hmem)
  · rw [if_neg h]
    rw [List.count_eq_zero]
    intro hmem
    rcases List.mem_map.1 hmem with ⟨q, hq, hqe⟩
    rw [List.mem_range] at hq
    rw [buf3_inj] at hqe
    omega

/-- The release multicast never targets a `buf7` buffer. -/
theorem relList_count_buf7 (n t u : Nat) : (relList n u).count (buf7 t) = 0 := by
  rw [List.count_eq_zero]
  intro hmem
  rcases List.mem_map.1 hmem with ⟨q, _, hqe⟩
  exact buf3_ne_buf7 (8*u + q + 1) t hqe

/-- Tokens the tile-0 fan-out contributes to `buf7 t`. -/
theorem fanList_sendsTo_buf7 (n t : Nat) :
    sendsTo (fanList n) (buf7 t) = if 1 ≤ t ∧ t ≤ nT n - 1 then 1 else 0 := by
  unfold fanList
  by_cases h : 1 ≤ t ∧ t ≤ nT n - 1
  · rw [if_pos h]
    have : ∀ m, t - 1 < m →
        sendsTo ((List.range m).map (fun d => Act.send (buf7 (d + 1)))) (buf7 t) = 1 := by
      intro m
      induction m with
      | zero => omega
      | succ j ih =>
        intro hj
        rw [List.range_succ, List.map_append, sendsTo_append]
        by_cases hjt : t - 1 < j
        · rw [ih hjt]
          have : sendsTo [Act.send (buf7 (j + 1))] (buf7 t) = 0 := by
            rw [sendsTo_cons, sendsTo_nil]
            simp only [Act.sendCount]
            rw [if_neg (by rw [buf7_inj]; omega)]
          simp only [List.map_cons, List.map_nil] at this ⊢
          omega
        · have hjt' : j = t - 1 := by omega
          subst hjt'
          have hz : sendsTo ((List.range (t-1)).map (fun d => Act.send (buf7 (d + 1)))) (buf7 t)
              = 0 := by
            rw [show (0:Nat) = (((List.range (t-1)).map (fun d => Act.send (buf7 (d+1)))).map
              (fun a => a.sendCount (buf7 t))).sum from ?_]
            · rfl
            · symm
              rw [List.map_map, List.sum_eq_zero]
              intro x hx
              rcases List.mem_map.1 hx with ⟨d, hd, hde⟩
              rw [List.mem_range] at hd
              simp only [Function.comp, Act.sendCount] at hde
              rw [if_neg (by rw [buf7_inj]; omega)] at hde
              omega
            -- fallthrough
          rw [hz]
          have : sendsTo [Act.send (buf7 (t - 1 + 1))] (buf7 t) = 1 := by
            rw [sendsTo_cons, sendsTo_nil]
            simp only [Act.sendCount]
            rw [if_pos (by rw [buf7_inj]; omega)]
          simp only [List.map_cons, List.map_nil] at this ⊢
          omega
    exact this (nT n - 1) (by omega)
  · rw [if_neg h]
    unfold sendsTo
    rw [List.map_map, List.sum_eq_zero]
    intro x hx
    rcases List.mem_map.1 hx with ⟨d, hd, hde⟩
    rw [List.mem_range] at hd
    simp only [Function.comp, Act.sendCount] at hde
    rw [if_neg (by rw [buf7_inj]; omega)] at hde
    omega

/-- The fan-out never targets a `buf3` buffer. -/
theorem fanList_sendsTo_buf3 (n g : Nat) : sendsTo (fanList n) (buf3 g) = 0 := by
  unfold fanList sendsTo
  rw [List.map_map, List.sum_eq_zero]
  intro x hx
  rcases List.mem_map.1 hx with ⟨d, _, hde⟩
  simp only [Function.comp, Act.sendCount] at hde
  rw [if_neg (fun hc => buf3_ne_buf7 g (d+1) hc.symm)] at hde
  omega

theorem sendCount_recv (x b : Nat) : (Act.recv x).sendCount b = 0 := rfl

theorem sendCount_send (x b : Nat) : (Act.send x).sendCount b = if x = b then 1 else 0 := rfl

theorem sendCount_sendM (l : List Nat) (b : Nat) : (Act.sendM l).sendCount b = l.count b := rfl

theorem sendCount_exec (i b : Nat) : (Act.exec i).sendCount b = 0 := rfl

/-- Every participant sits strictly inside its tile's active range. -/
theorem pos_lt_ctt (n g : Nat) (hg : g < n) : g % 8 < ctt n (g / 8) := by
  unfold ctt
  omega

/-- Non-leader, non-last position on its tile: wait for the chain token,
pass it down, wait for the release. -/
theorem prog_A (n g : Nat) (hp : 0 < g % 8) (hmid : g % 8 + 1 < ctt n (g / 8)) :
    syncProg n g = [Act.recv (buf3 g), Act.send (buf3 (g-1)), Act.recv (buf3 g)] := by
  unfold syncProg
  rw [if_pos (show g % 8 < ctt n (g / 8) - 1 by omega), if_pos hp]
  rfl

/-- Non-leader at the last position of its tile: start the chain, wait for
the release. -/
theorem prog_B (n g : Nat) (hp : 0 < g % 8) (htop : ctt n (g / 8) ≤ g % 8 + 1) :
    syncProg n g = [Act.send (buf3 (g-1)), Act.recv (buf3 g)] := by
  unfold syncProg
  rw [if_neg (show ¬(g % 8 < ctt n (g / 8) - 1) by omega), if_pos hp]
  rfl

/-- Splitting a leader's program into body and release multicast. -/
theorem prog_leader (n t : Nat) :
    syncProg n (8*t)
      = leaderBody n t ++ (if 1 < ctt n t then [Act.sendM (relList n t)] else []) := by
  have h1 : 8*t % 8 = 0 := by omega
  have h2 : 8*t / 8 = t := by omega
  unfold syncProg leaderBody
  rw [h1, h2, if_neg (show ¬(0 < 0) by omega)]
  exact (List.append_assoc _ _ _).symm

/-- Single participant: `loki_sync_ex` returns immediately. -/
theorem prog_n1 : syncProg 1 0 = [] := rfl

/-- Single-tile leader (`2 ≤ n ≤ 8`): collect the chain, release the tile. -/
theorem prog_L1a (n : Nat) (h2 : 2 ≤ n) (h8 : n ≤ 8) :
    syncProg n 0 = [Act.recv (buf3 0), Act.sendM (relList n 0)] := by
  unfold syncProg tileSyncProg
  rw [if_pos (show 0 % 8 < ctt n (0 / 8) - 1 by unfold ctt; omega),
    if_neg (show ¬(0 < 0 % 8) by omega),
    if_pos (show nT n ≤ 1 by unfold nT; omega),
    if_pos (show 1 < ctt n (0 / 8) by unfold ctt; omega)]
  rfl

/-- Multi-tile first-tile leader (`n > 8`): collect its tile's chain, wait
for the tile chain on r7, fan the release to every other tile's leader,
then release its own tile. -/
theorem prog_L2 (n : Nat) (h9 : 8 < n) :
    syncProg n 0 = Act.recv (buf3 0) :: Act.recv (buf7 0)
      :: (fanList n ++ [Act.sendM (relList n 0)]) := by
  unfold syncProg tileSyncProg
  rw [if_pos (show 0 % 8 < ctt n (0 / 8) - 1 by unfold ctt; omega),
    if_neg (show ¬(0 < 0 % 8) by omega),
    if_neg (show ¬(nT n ≤ 1) by unfold nT; omega),
    if_pos (show (0:Nat) / 8 < nT n - 1 by unfold nT; omega),
    if_neg (show ¬(0 < (0:Nat) / 8) by omega),
    if_pos (show 1 < ctt n (0 / 8) by unfold ctt; omega)]
  rfl

/-- Middle-tile leader. -/
theorem prog_L3 (n t : Nat) (h0 : 0 < t) (hlt : 8*(t+1) < n) :
    syncProg n (8*t) = [Act.recv (buf3 (8*t)), Act.recv (buf7 t),
      Act.send (buf7 (t-1)), Act.recv (buf7 t), Act.sendM (relList n t)] := by
  have h1 : 8*t % 8 = 0 := by omega
  have h2 : 8*t / 8 = t := by omega
  unfold syncProg tileSyncProg
  rw [h1, h2, if_pos (show 0 < ctt n t - 1 by unfold ctt; omega),
    if_neg (show ¬(0 < 0) by omega),
    if_neg (show ¬(nT n ≤ 1) by unfold nT; omega),
    if_pos (show t < nT n - 1 by unfold nT; omega),
    if_pos h0,
    if_pos (show 1 < ctt n t by unfold ctt; omega)]
  rfl

/-- Last-tile leader with company (`t ≥ 1`, at least two cores on the tile). -/
theorem prog_L4 (n t : Nat) (h0 : 0 < t) (hin : 8*t + 1 < n) (hlast : n ≤ 8*(t+1)) :
    syncProg n (8*t) = [Act.recv (buf3 (8*t)),
      Act.send (buf7 (t-1)), Act.recv (buf7 t), Act.sendM (relList n t)] := by
  have h1 : 8*t % 8 = 0 := by omega
  have h2 : 8*t / 8 = t := by omega
  unfold syncProg tileSyncProg
  rw [h1, h2, if_pos (show 0 < ctt n t - 1 by unfold ctt; omega),
    if_neg (show ¬(0 < 0) by omega),
    if_neg (show ¬(nT n ≤ 1) by unfold nT; omega),
    if_neg (show ¬(t < nT n - 1) by unfold nT; omega),
    if_pos h0,
    if_pos (show 1 < ctt n t by unfold ctt; omega)]
  rfl

/-- Last-tile leader alone on its tile (`n = 8t + 1`, `t ≥ 1`). -/
theorem prog_L5 (n t : Nat) (h0 : 0 < t) (hone : n = 8*t + 1) :
    syncProg n (8*t) = [Act.send (buf7 (t-1)), Act.recv (buf7 t)] := by
  have h1 : 8*t % 8 = 0 := by omega
  have h2 : 8*t / 8 = t := by omega
  unfold syncProg tileSyncProg
  rw [h1, h2, if_neg (show ¬(0 < ctt n t - 1) by unfold ctt; omega),
    if_neg (show ¬(0 < 0) by omega),
    if_neg (show ¬(nT n ≤ 1) by unfold nT; omega),
    if_neg (show ¬(t < nT n - 1) by unfold nT; omega),
    if_pos h0,
    if_neg (show ¬(1 < ctt n t) by unfold ctt; omega)]
  rfl

/-- A leader's program body (everything before the release) sends nothing
to any `r3` buffer. -/
theorem buf7_ne_buf3 (t g : Nat) : buf7 t ≠ buf3 g := fun h => buf3_ne_buf7 g t h.symm

theorem leaderBody_sendsTo_buf3 (n t g : Nat) : sendsTo (leaderBody n t) (buf3 g) = 0 := by
  unfold leaderBody tileSyncProg
  split_ifs <;>
    simp [sendsTo_append, sendsTo_cons, sendsTo_nil, sendCount_recv, sendCount_send,
      sendCount_sendM, fanList_sendsTo_buf3, buf7_ne_buf3]

/-- Everything a non-leader ever sends to a given `r3` buffer: one chain
token, to its lower neighbour. -/
theorem nonleader_sendsTo_buf3 (n g b : Nat) (hp : 0 < g % 8) :
    sendsTo (syncProg n g) (buf3 b) = if g - 1 = b then 1 else 0 := by
  unfold syncProg
  rw [if_pos hp]
  split_ifs with hc <;>
    simp [sendsTo_append, sendsTo_cons, sendsTo_nil, sendCount_recv, sendCount_send,
      buf3_inj] <;>
    omega

/-- Everything a leader ever sends to a given `r3` buffer: at most the one
release token, to the strictly-inside positions of its own tile. -/
theorem leader_sendsTo_buf3 (n u b : Nat) :
    sendsTo (syncProg n (8*u)) (buf3 b)
      = if 1 < ctt n u ∧ 8*u < b ∧ b < 8*u + ctt n u then 1 else 0 := by
  rw [prog_leader, sendsTo_append, leaderBody_sendsTo_buf3]
  split_ifs with h1 h2 h2
  · rw [sendsTo_cons, sendsTo_nil, sendCount_sendM, relList_count]
    rw [if_pos ⟨h2.2.1, h2.2.2⟩]
  · rw [sendsTo_cons, sendsTo_nil, sendCount_sendM, relList_count]
    rw [if_neg (fun hcon => h2 ⟨h1, hcon⟩)]
  · exact absurd h2.1 h1
  · rfl

/-- A non-leader never sends to an `r7` buffer. -/
theorem nonleader_sendsTo_buf7 (n g t : Nat) (hp : 0 < g % 8) :
    sendsTo (syncProg n g) (buf7 t) = 0 := by
  unfold syncProg
  rw [if_pos hp]
  split_ifs with hc <;>
    simp [sendsTo_append, sendsTo_cons, sendsTo_nil, sendCount_recv, sendCount_send,
      buf3_ne_buf7]

/-- Everything a leader ever sends to a given `r7` buffer. -/
theorem leader_sendsTo_buf7 (n u t : Nat) :
    sendsTo (syncProg n (8*u)) (buf7 t)
      = if nT n ≤ 1 then 0
        else if 0 < u then (if t = u - 1 then 1 else 0)
        else if 1 ≤ t ∧ t ≤ nT n - 1 then 1 else 0 := by
  rw [prog_leader, sendsTo_append]
  have hrel : sendsTo (if 1 < ctt n u then [Act.sendM (relList n u)] else []) (buf7 t) = 0 := by
    split_ifs
    · rw [sendsTo_cons, sendsTo_nil, sendCount_sendM, relList_count_buf7]
    · rfl
  rw [hrel]
  unfold leaderBody tileSyncProg
  have hswap : ∀ a b : Nat, (buf7 a = buf7 b) = (b = a) := by
    intro a b
    rw [buf7_inj]
    exact propext ⟨fun h => h.symm, fun h => h.symm⟩
  split_ifs <;>
    simp_all [sendsTo_append, sendsTo_cons, sendsTo_nil, sendCount_recv, sendCount_send,
      fanList_sendsTo_buf7, hswap]

/-- The action at a non-leader's chain-send index. -/
theorem ga_chain (n g : Nat) (hp : 0 < g % 8) :
    (syncProg n g)[chainIdx n g]? = some (Act.send (buf3 (g-1))) := by
  unfold chainIdx
  by_cases hmid : g % 8 + 1 < ctt n (g / 8)
  · rw [if_pos hmid, prog_A n g hp hmid]
    rfl
  · rw [if_neg hmid, prog_B n g hp (by omega)]
    rfl

/-- The action at a leader's release index. -/
theorem ga_rel (n t : Nat) (hct : 1 < ctt n t) :
    (syncProg n (8*t))[relIdx n t]? = some (Act.sendM (relList n t)) := by
  have hsplit := prog_leader n t
  rw [if_pos hct] at hsplit
  have hlen : relIdx n t = (leaderBody n t).length := by
    unfold relIdx
    rw [hsplit, List.length_append]
    simp
  rw [hlen, hsplit]
  rw [List.getElem?_concat_length]

/-- The action at a non-first tile leader's inter-tile chain-send index. -/
theorem ga_send7 (n t : Nat) (h0 : 0 < t) (h8 : 8*t < n) :
    (syncProg n (8*t))[sendIdx7 n t]? = some (Act.send (buf7 (t-1))) := by
  unfold sendIdx7
  by_cases hmid : 8*(t+1) < n
  · rw [prog_L3 n t h0 hmid,
      if_pos (show 1 < ctt n t by unfold ctt; omega),
      if_pos (show t < nT n - 1 by unfold nT; omega)]
    rfl
  · by_cases hcomp : 8*t + 1 < n
    · rw [prog_L4 n t h0 hcomp (by omega),
        if_pos (show 1 < ctt n t by unfold ctt; omega),
        if_neg (show ¬(t < nT n - 1) by unfold nT; omega)]
      rfl
    · rw [prog_L5 n t h0 (by omega),
        if_neg (show ¬(1 < ctt n t) by unfold ctt; omega),
        if_neg (show ¬(t < nT n - 1) by unfold nT; omega)]
      rfl

/-- The action at index 1 of the first-tile leader in a multi-tile sync. -/
theorem ga_cd (n : Nat) (h9 : 8 < n) :
    (syncProg n 0)[1]? = some (Act.recv (buf7 0)) := by
  rw [prog_L2 n h9]
  simp

/-- Before its chain send, a non-leader has sent nothing to its lower
neighbour's buffer. -/
theorem chain3_take (n g : Nat) (hp : 0 < g % 8) :
    sendsTo ((syncProg n g).take (chainIdx n g)) (buf3 (g-1)) = 0 := by
  unfold chainIdx
  by_cases hmid : g % 8 + 1 < ctt n (g / 8)
  · rw [if_pos hmid, prog_A n g hp hmid]
    simp [sendsTo_cons, sendsTo_nil, sendCount_recv]
  · rw [if_neg hmid]
    rfl

/-- Before its release, a leader has sent nothing to any `r3` buffer. -/
theorem rel_take (n t g : Nat) (hct : 1 < ctt n t) :
    sendsTo ((syncProg n (8*t)).take (relIdx n t)) (buf3 g) = 0 := by
  have hsplit := prog_leader n t
  rw [if_pos hct] at hsplit
  have hlen : relIdx n t = (leaderBody n t).length := by
    unfold relIdx
    rw [hsplit, List.length_append]
    simp
  rw [hlen, hsplit, List.take_left]
  exact leaderBody_sendsTo_buf3 n t g

/-- Before its inter-tile chain send, a leader has sent nothing to the
previous tile's `r7` buffer. -/
theorem chain7_take (n t : Nat) (h0 : 0 < t) (h8 : 8*t < n) :
    sendsTo ((syncProg n (8*t)).take (sendIdx7 n t)) (buf7 (t-1)) = 0 := by
  unfold sendIdx7
  by_cases hmid : 8*(t+1) < n
  · rw [prog_L3 n t h0 hmid,
      if_pos (show 1 < ctt n t by unfold ctt; omega),
      if_pos (show t < nT n - 1 by unfold nT; omega)]
    simp [sendsTo_cons, sendsTo_nil, sendCount_recv]
  · by_cases hcomp : 8*t + 1 < n
    · rw [prog_L4 n t h0 hcomp (by omega),
        if_pos (show 1 < ctt n t by unfold ctt; omega),
        if_neg (show ¬(t < nT n - 1) by unfold nT; omega)]
      simp [sendsTo_cons, sendsTo_nil, sendCount_recv]
    · rw [prog_L5 n t h0 (by omega),
        if_neg (show ¬(1 < ctt n t) by unfold ctt; omega),
        if_neg (show ¬(t < nT n - 1) by unfold nT; omega)]
      rfl

/-- Before finishing its r7 receive, the first-tile leader has sent
nothing to any `r7` buffer. -/
theorem fan_take2 (n t : Nat) (h9 : 8 < n) :
    sendsTo ((syncProg n 0).take 2) (buf7 t) = 0 := by
  rw [prog_L2 n h9]
  simp [sendsTo_cons, sendsTo_nil, sendCount_recv, List.take]

/-- A non-leader's first action (when it has one to collect) receives the
chain token. -/
theorem rcA_take1 (n g : Nat) (hp : 0 < g % 8) (hmid : g % 8 + 1 < ctt n (g / 8)) :
    recvCount ((syncProg n g).take 1) (buf3 g) = 1 := by
  rw [prog_A n g hp hmid]
  simp [recvCount_cons, recvCount_nil, List.take]

/-- Full receive count of a middle non-leader on its own `r3` buffer. -/
theorem rcA_full (n g : Nat) (hp : 0 < g % 8) (hmid : g % 8 + 1 < ctt n (g / 8)) :
    recvCount (syncProg n g) (buf3 g) = 2 := by
  rw [prog_A n g hp hmid]
  simp [recvCount_cons, recvCount_nil]

/-- Full receive count of a tile-topmost non-leader on its own `r3` buffer. -/
theorem rcB_full (n g : Nat) (hp : 0 < g % 8) (htop : ctt n (g / 8) ≤ g % 8 + 1) :
    recvCount (syncProg n g) (buf3 g) = 1 := by
  rw [prog_B n g hp htop]
  simp [recvCount_cons, recvCount_nil, buf3_inj]

/-- A leader with company collects the chain with its first action. -/
theorem rc_leader_take1 (n t : Nat) (h8 : 8*t < n) (hct : 1 < ctt n t) :
    recvCount ((syncProg n (8*t)).take 1) (buf3 (8*t)) = 1 := by
  have hsplit := prog_leader n t
  rw [if_pos hct] at hsplit
  have hbody : ∃ l, leaderBody n t = Act.recv (buf3 (8*t)) :: l := by
    unfold leaderBody
    rw [if_pos (show 0 < ctt n t - 1 by omega)]
    exact ⟨tileSyncProg n t, rfl⟩
  rcases hbody with ⟨l, hl⟩
  rw [hsplit, hl]
  simp [recvCount_cons, recvCount_nil, List.take]

/-- The first-tile leader's second action receives on its `r7` input. -/
theorem rc_L2_take2 (n : Nat) (h9 : 8 < n) :
    recvCount ((syncProg n 0).take 2) (buf7 0) = 1 := by
  rw [prog_L2 n h9]
  simp [recvCount_cons, recvCount_nil, List.take, buf3_ne_buf7]

/-- Receive count on the own `r7` buffer of a non-first tile leader right
before its release multicast. -/
theorem rc_rel_take (n t : Nat) (h0 : 0 < t) (h8 : 8*t + 1 < n) :
    (8*(t+1) < n → recvCount ((syncProg n (8*t)).take (relIdx n t)) (buf7 t) = 2) ∧
    (n ≤ 8*(t+1) → recvCount ((syncProg n (8*t)).take (relIdx n t)) (buf7 t) = 1) := by
  constructor
  · intro hmid
    have hform := prog_L3 n t h0 hmid
    have hidx : relIdx n t = 4 := by
      unfold relIdx
      rw [hform]
      rfl
    rw [hidx, hform]
    simp [recvCount_cons, recvCount_nil, List.take, buf3_ne_buf7, buf7_inj, buf7_ne_buf3]
  · intro hlast
    have hform := prog_L4 n t h0 h8 hlast
    have hidx : relIdx n t = 3 := by
      unfold relIdx
      rw [hform]
      rfl
    rw [hidx, hform]
    simp [recvCount_cons, recvCount_nil, List.take, buf3_ne_buf7, buf7_inj, buf7_ne_buf3]

/-- Full receive count of a lone last-tile leader on its `r7` buffer. -/
theorem rc_L5_full (n t : Nat) (h0 : 0 < t) (hone : n = 8*t + 1) :
    recvCount (syncProg n (8*t)) (buf7 t) = 1 := by
  rw [prog_L5 n t h0 hone]
  simp [recvCount_cons, recvCount_nil, buf7_inj]

/-- The third receive of a middle-tile leader (`take 2` covers its own
`r3` collect and the inter-tile chain arrival). -/
theorem rc_L3_take2 (n t : Nat) (h0 : 0 < t) (hup : 8*(t+1) < n) :
    recvCount ((syncProg n (8*t)).take 2) (buf7 t) = 1 := by
  rw [prog_L3 n t h0 hup]
  simp [recvCount_cons, recvCount_nil, List.take, buf3_ne_buf7, buf7_inj]

/-- A leader with company has at least one action before its release. -/
theorem relIdx_pos (n t : Nat) (h8 : 8*t < n) (hct : 1 < ctt n t) :
    1 ≤ relIdx n t := by
  have hsplit := prog_leader n t
  rw [if_pos hct] at hsplit
  have hb : 1 ≤ (leaderBody n t).length := by
    unfold leaderBody
    rw [if_pos (show 0 < ctt n t - 1 by omega)]
    simp
  unfold relIdx
  rw [hsplit, List.length_append]
  simp
  omega

/-- In a multi-tile barrier, core 0 releases only after its two receives. -/
theorem relIdx_L2_ge (n : Nat) (h9 : 8 < n) : 2 ≤ relIdx n 0 := by
  unfold relIdx
  rw [prog_L2 n h9]
  simp [List.length_append]

/-- A sum over `range n` of a function supported on at most `{a}` is
bounded by that one term. -/
theorem sum_le_single (n a : Nat) (f : Nat → Nat)
    (h : ∀ x, x < n → x ≠ a → f x = 0) :
    (∑ x in Finset.range n, f x) ≤ f a := by
  have h1 : (∑ x in (Finset.range n).filter (fun x => x = a), f x)
      = ∑ x in Finset.range n, f x := by
    refine Finset.sum_filter_of_ne (fun x hx hfx => ?_)
    by_contra hmem
    exact hfx (h x (Finset.mem_range.1 hx) hmem)
  have h2 : (Finset.range n).filter (fun x => x = a) ⊆ ({a} : Finset Nat) := by
    intro x hx
    simp only [Finset.mem_singleton]
    exact (Finset.mem_filter.1 hx).2
  have h3 : (∑ x in (Finset.range n).filter (fun x => x = a), f x)
      ≤ ∑ x in ({a} : Finset Nat), f x :=
    Finset.sum_le_sum_of_subset h2
  have h4 : (∑ x in ({a} : Finset Nat), f x) = f a := Finset.sum_singleton _ _
  omega

/-- Guarded single-term bound: the named index need not lie in range. -/
theorem sum_le_single_if (n a : Nat) (f : Nat → Nat)
    (h : ∀ x, x < n → x ≠ a → f x = 0) :
    (∑ x in Finset.range n, f x) ≤ if a < n then f a else 0 := by
  by_cases ha : a < n
  · rw [if_pos ha]
    exact sum_le_single n a f h
  · rw [if_neg ha]
    have : (∑ x in Finset.range n, f x) = 0 :=
      Finset.sum_eq_zero (fun x hx => h x (Finset.mem_range.1 hx) (by
        have := Finset.mem_range.1 hx
        omega))
    omega

/-- Guarded pair bound: the named indices need not lie in range. -/
theorem sum_le_pair_if (n a b : Nat) (f : Nat → Nat)
    (h : ∀ x, x < n → x ≠ a → x ≠ b → f x = 0) :
    (∑ x in Finset.range n, f x)
      ≤ (if a < n then f a else 0) + (if b < n then f b else 0) := by
  by_cases ha : a < n
  · by_cases hb : b < n
    · rw [if_pos ha, if_pos hb]
      exact sum_le_pair n a b f h
    · rw [if_pos ha, if_neg hb]
      have := sum_le_single n a f (fun x hx hxa => h x hx hxa (by omega))
      omega
  · by_cases hb : b < n
    · rw [if_neg ha, if_pos hb]
      have := sum_le_single n b f (fun x hx hxb => h x hx (by omega) hxb)
      omega
    · rw [if_neg ha, if_neg hb]
      have : (∑ x in Finset.range n, f x) = 0 :=
        Finset.sum_eq_zero (fun x hx => h x (Finset.mem_range.1 hx) (by
          have := Finset.mem_range.1 hx
          omega) (by
          have := Finset.mem_range.1 hx
          omega))
      omega

/-- Token conservation for the barrier programs, as a predicate on states. -/
def Consv (n : Nat) (u : Sys) : Prop :=
  ∀ ch, u.tokens ch + recvTotal n (syncProg n) u ch = sendTotal n (syncProg n) u ch

/-- Any receive count is bounded by the total ever sent to that buffer. -/
theorem recv_le_sendTotal (n : Nat) (u : Sys) (hcons : Consv n u)
    (g ch : Nat) (hg : g < n) :
    recvCount (fired (syncProg n) u g) ch ≤ sendTotal n (syncProg n) u ch := by
  have h1 : recvCount (fired (syncProg n) u g) ch ≤ recvTotal n (syncProg n) u ch := by
    unfold recvTotal
    exact le_sum_single n g hg (fun c => recvCount (fired (syncProg n) u c) ch)
  have := hcons ch
  omega

/-- What a core has sent so far is at most its whole program's sends. -/
theorem fired_sendsTo_le (n : Nat) (u : Sys) (c ch : Nat) :
    sendsTo (fired (syncProg n) u c) ch ≤ sendsTo (syncProg n c) ch :=
  sendsTo_take_le (syncProg n c) ch (cnt u c)

/-- Guarded pair bound on the total sent to a buffer, given that only two
cores could ever send to it. -/
theorem sendTotal_le_pair_if (n : Nat) (u : Sys) (a b ch : Nat)
    (h : ∀ c, c < n → c ≠ a → c ≠ b → sendsTo (syncProg n c) ch = 0) :
    sendTotal n (syncProg n) u ch
      ≤ (if a < n then sendsTo (fired (syncProg n) u a) ch else 0)
        + (if b < n then sendsTo (fired (syncProg n) u b) ch else 0) := by
  unfold sendTotal
  apply sum_le_pair_if
  intro c hc hca hcb
  have h1 := fired_sendsTo_le n u c ch
  have h2 := h c hc hca hcb
  omega

/-- Guarded single bound on the total sent to a buffer, given that only
one core could ever send to it. -/
theorem sendTotal_le_single_if (n : Nat) (u : Sys) (a ch : Nat)
    (h : ∀ c, c < n → c ≠ a → sendsTo (syncProg n c) ch = 0) :
    sendTotal n (syncProg n) u ch
      ≤ if a < n then sendsTo (fired (syncProg n) u a) ch else 0 := by
  unfold sendTotal
  apply sum_le_single_if
  intro c hc hca
  have h1 := fired_sendsTo_le n u c ch
  have h2 := h c hc hca
  omega

/-- If a non-leader has consumed a token from its own `r3` buffer, then
either its tile's leader has performed the release multicast, or the next
core up the chain has performed its chain send. -/
theorem sender3_of_recv (n : Nat) (u : Sys) (hcons : Consv n u)
    (g : Nat) (hg : g < n) (hp : 0 < g % 8)
    (hrc : 1 ≤ recvCount (fired (syncProg n) u g) (buf3 g)) :
    did u (8*(g/8)) (relIdx n (g/8)) ∨
      (g + 1 < n ∧ 0 < (g+1) % 8 ∧ did u (g+1) (chainIdx n (g+1))) := by
  have hst : 1 ≤ sendTotal n (syncProg n) u (buf3 g) :=
    le_trans hrc (recv_le_sendTotal n u hcons g (buf3 g) hg)
  have hsupp : ∀ c, c < n → c ≠ 8*(g/8) → c ≠ g+1 →
      sendsTo (syncProg n c) (buf3 g) = 0 := by
    intro c hc hcl hcr
    by_cases hc8 : c % 8 = 0
    · have hceq : 8*(c/8) = c := by omega
      have hz := leader_sendsTo_buf3 n (c/8) g
      rw [hceq] at hz
      rw [hz, if_neg]
      rintro ⟨hct, hlo, hhi⟩
      have hle8 : ctt n (c/8) ≤ 8 := by unfold ctt; omega
      exact hcl (by omega)
    · have hz := nonleader_sendsTo_buf3 n c g (by omega)
      rw [hz, if_neg (show ¬(c - 1 = g) by omega)]
  have hpair := sendTotal_le_pair_if n u (8*(g/8)) (g+1) (buf3 g) hsupp
  by_cases hA : 1 ≤ (if 8*(g/8) < n then sendsTo (fired (syncProg n) u (8*(g/8))) (buf3 g) else 0)
  · left
    have h8n : 8*(g/8) < n := by
      by_contra hno
      rw [if_neg hno] at hA
      omega
    rw [if_pos h8n] at hA
    have hct : 1 < ctt n (g/8) := by
      have := pos_lt_ctt n g hg
      omega
    have htake := rel_take n (g/8) g hct
    have hpos : 0 < sendsTo ((syncProg n (8*(g/8))).take (cnt u (8*(g/8)))) (buf3 g) := hA
    exact lt_of_sendsTo_take_pos (syncProg n (8*(g/8))) (buf3 g)
      (relIdx n (g/8)) (cnt u (8*(g/8))) htake hpos
  · right
    have hB : 1 ≤ (if g+1 < n then sendsTo (fired (syncProg n) u (g+1)) (buf3 g) else 0) := by
      omega
    have hg1n : g+1 < n := by
      by_contra hno
      rw [if_neg hno] at hB
      omega
    rw [if_pos hg1n] at hB
    have hp1 : 0 < (g+1) % 8 := by
      by_contra h0
      have h0' : (g+1) % 8 = 0 := by omega
      have hle : 8*((g+1)/8) = g+1 := by omega
      have hz := leader_sendsTo_buf3 n ((g+1)/8) g
      rw [hle] at hz
      have hz' : sendsTo (syncProg n (g+1)) (buf3 g) = 0 := by
        rw [hz, if_neg]
        rintro ⟨-, h2, -⟩
        omega
      have hfle := fired_sendsTo_le n u (g+1) (buf3 g)
      omega
    refine ⟨hg1n, hp1, ?_⟩
    have htake := chain3_take n (g+1) hp1
    have htake' : sendsTo ((syncProg n (g+1)).take (chainIdx n (g+1))) (buf3 g) = 0 := by
      rw [show g + 1 - 1 = g from by omega] at htake
      exact htake
    have hpos : 0 < sendsTo ((syncProg n (g+1)).take (cnt u (g+1))) (buf3 g) := hB
    exact lt_of_sendsTo_take_pos (syncProg n (g+1)) (buf3 g)
      (chainIdx n (g+1)) (cnt u (g+1)) htake' hpos

/-- If a non-leader has consumed two tokens from its own `r3` buffer, the
leader must have released (the chain neighbour sends at most one). -/
theorem rel_sender_of_two (n : Nat) (u : Sys) (hcons : Consv n u)
    (g : Nat) (hg : g < n) (hp : 0 < g % 8)
    (hrc : 2 ≤ recvCount (fired (syncProg n) u g) (buf3 g)) :
    did u (8*(g/8)) (relIdx n (g/8)) := by
  have hst : 2 ≤ sendTotal n (syncProg n) u (buf3 g) :=
    le_trans hrc (recv_le_sendTotal n u hcons g (buf3 g) hg)
  have hsupp : ∀ c, c < n → c ≠ 8*(g/8) → c ≠ g+1 →
      sendsTo (syncProg n c) (buf3 g) = 0 := by
    intro c hc hcl hcr
    by_cases hc8 : c % 8 = 0
    · have hceq : 8*(c/8) = c := by omega
      have hz := leader_sendsTo_buf3 n (c/8) g
      rw [hceq] at hz
      rw [hz, if_neg]
      rintro ⟨hct, hlo, hhi⟩
      have hle8 : ctt n (c/8) ≤ 8 := by unfold ctt; omega
      exact hcl (by omega)
    · have hz := nonleader_sendsTo_buf3 n c g (by omega)
      rw [hz, if_neg (show ¬(c - 1 = g) by omega)]
  have hpair := sendTotal_le_pair_if n u (8*(g/8)) (g+1) (buf3 g) hsupp
  have hBle : (if g+1 < n then sendsTo (fired (syncProg n) u (g+1)) (buf3 g) else 0) ≤ 1 := by
    by_cases hg1n : g+1 < n
    · rw [if_pos hg1n]
      have hfle := fired_sendsTo_le n u (g+1) (buf3 g)
      by_cases hc8 : (g+1) % 8 = 0
      · have hle : 8*((g+1)/8) = g+1 := by omega
        have hz := leader_sendsTo_buf3 n ((g+1)/8) g
        rw [hle] at hz
        rw [hz] at hfle
        split_ifs at hfle <;> omega
      · have hz := nonleader_sendsTo_buf3 n (g+1) g (by omega)
        rw [hz] at hfle
        split_ifs at hfle <;> omega
    · rw [if_neg hg1n]
      omega
  have hA : 1 ≤ (if 8*(g/8) < n then sendsTo (fired (syncProg n) u (8*(g/8))) (buf3 g) else 0) := by
    omega
  have h8n : 8*(g/8) < n := by
    by_contra hno
    rw [if_neg hno] at hA
    omega
  rw [if_pos h8n] at hA
  have hct : 1 < ctt n (g/8) := by
    have := pos_lt_ctt n g hg
    omega
  have htake := rel_take n (g/8) g hct
  have hpos : 0 < sendsTo ((syncProg n (8*(g/8))).take (cnt u (8*(g/8)))) (buf3 g) := hA
  exact lt_of_sendsTo_take_pos (syncProg n (8*(g/8))) (buf3 g)
    (relIdx n (g/8)) (cnt u (8*(g/8))) htake hpos

/-- If a leader has consumed a token from its own `r3` buffer, the core
above it has performed its chain send (nobody else ever sends there). -/
theorem sender3_of_recv_leader (n : Nat) (u : Sys) (hcons : Consv n u)
    (t : Nat) (h8 : 8*t < n)
    (hrc : 1 ≤ recvCount (fired (syncProg n) u (8*t)) (buf3 (8*t))) :
    8*t + 1 < n ∧ did u (8*t+1) (chainIdx n (8*t+1)) := by
  have hst : 1 ≤ sendTotal n (syncProg n) u (buf3 (8*t)) :=
    le_trans hrc (recv_le_sendTotal n u hcons (8*t) (buf3 (8*t)) h8)
  have hsupp : ∀ c, c < n → c ≠ 8*t+1 → sendsTo (syncProg n c) (buf3 (8*t)) = 0 := by
    intro c hc hcr
    by_cases hc8 : c % 8 = 0
    · have hceq : 8*(c/8) = c := by omega
      have hz := leader_sendsTo_buf3 n (c/8) (8*t)
      rw [hceq] at hz
      rw [hz, if_neg]
      rintro ⟨hct, hlo, hhi⟩
      have hle8 : ctt n (c/8) ≤ 8 := by unfold ctt; omega
      omega
    · have hz := nonleader_sendsTo_buf3 n c (8*t) (by omega)
      rw [hz, if_neg (show ¬(c - 1 = 8*t) by omega)]
  have hsing := sendTotal_le_single_if n u (8*t+1) (buf3 (8*t)) hsupp
  have h1n : 8*t+1 < n := by
    by_contra hno
    rw [if_neg hno] at hsing
    omega
  rw [if_pos h1n] at hsing
  refine ⟨h1n, ?_⟩
  have hp1 : 0 < (8*t+1) % 8 := by omega
  have htake := chain3_take n (8*t+1) hp1
  have htake' : sendsTo ((syncProg n (8*t+1)).take (chainIdx n (8*t+1))) (buf3 (8*t)) = 0 := by
    rw [show 8*t + 1 - 1 = 8*t from by omega] at htake
    exact htake
  have hApos : 1 ≤ sendsTo (fired (syncProg n) u (8*t+1)) (buf3 (8*t)) := by omega
  have hpos : 0 < sendsTo ((syncProg n (8*t+1)).take (cnt u (8*t+1))) (buf3 (8*t)) := hApos
  exact lt_of_sendsTo_take_pos (syncProg n (8*t+1)) (buf3 (8*t))
    (chainIdx n (8*t+1)) (cnt u (8*t+1)) htake' hpos

/-- If the leader of tile `t ≥ 1` has consumed a token from its `r7`
buffer, then core 0 has passed its own `r7` receive (the release fan-out
reached `t`), or the leader of tile `t+1` has performed its chain send. -/
theorem sender7_of_recv (n : Nat) (u : Sys) (hcons : Consv n u)
    (t : Nat) (h0 : 0 < t) (h8 : 8*t < n)
    (hrc : 1 ≤ recvCount (fired (syncProg n) u (8*t)) (buf7 t)) :
    did u 0 1 ∨ (8*(t+1) < n ∧ did u (8*(t+1)) (sendIdx7 n (t+1))) := by
  have hst : 1 ≤ sendTotal n (syncProg n) u (buf7 t) :=
    le_trans hrc (recv_le_sendTotal n u hcons (8*t) (buf7 t) h8)
  have hsupp : ∀ c, c < n → c ≠ 0 → c ≠ 8*(t+1) → sendsTo (syncProg n c) (buf7 t) = 0 := by
    intro c hc hc0 hcb
    by_cases hc8 : c % 8 = 0
    · have hceq : 8*(c/8) = c := by omega
      have hz := leader_sendsTo_buf7 n (c/8) t
      rw [hceq] at hz
      rw [hz]
      split_ifs <;> omega
    · exact nonleader_sendsTo_buf7 n c t (by omega)
  have hpair := sendTotal_le_pair_if n u 0 (8*(t+1)) (buf7 t) hsupp
  by_cases hA : 1 ≤ (if 0 < n then sendsTo (fired (syncProg n) u 0) (buf7 t) else 0)
  · left
    rw [if_pos (by omega)] at hA
    have h9 : 8 < n := by
      by_contra hle
      have hz := leader_sendsTo_buf7 n 0 t
      rw [show 8*0 = 0 from rfl] at hz
      rw [if_pos (show nT n ≤ 1 by unfold nT; omega)] at hz
      have hfle := fired_sendsTo_le n u 0 (buf7 t)
      omega
    have htake := fan_take2 n t h9
    have hpos : 0 < sendsTo ((syncProg n 0).take (cnt u 0)) (buf7 t) := hA
    have h2lt := lt_of_sendsTo_take_pos (syncProg n 0) (buf7 t) 2 (cnt u 0) htake hpos
    show 1 < cnt u 0
    omega
  · right
    have hB : 1 ≤ (if 8*(t+1) < n then sendsTo (fired (syncProg n) u (8*(t+1))) (buf7 t) else 0) := by
      omega
    have hbn : 8*(t+1) < n := by
      by_contra hno
      rw [if_neg hno] at hB
      omega
    rw [if_pos hbn] at hB
    refine ⟨hbn, ?_⟩
    have htake := chain7_take n (t+1) (by omega) hbn
    have htake' : sendsTo ((syncProg n (8*(t+1))).take (sendIdx7 n (t+1))) (buf7 t) = 0 := by
      rw [show t + 1 - 1 = t from by omega] at htake
      exact htake
    have hpos : 0 < sendsTo ((syncProg n (8*(t+1))).take (cnt u (8*(t+1)))) (buf7 t) := hB
    exact lt_of_sendsTo_take_pos (syncProg n (8*(t+1))) (buf7 t)
      (sendIdx7 n (t+1)) (cnt u (8*(t+1))) htake' hpos

/-- If core 0 has consumed a token from its `r7` buffer, the leader of
tile 1 has performed its inter-tile chain send (its only possible source). -/
theorem sender7_of_recv0 (n : Nat) (u : Sys) (hcons : Consv n u)
    (hn : 0 < n)
    (hrc : 1 ≤ recvCount (fired (syncProg n) u 0) (buf7 0)) :
    8 < n ∧ did u 8 (sendIdx7 n 1) := by
  have hst : 1 ≤ sendTotal n (syncProg n) u (buf7 0) :=
    le_trans hrc (recv_le_sendTotal n u hcons 0 (buf7 0) hn)
  have hsupp : ∀ c, c < n → c ≠ 8 → sendsTo (syncProg n c) (buf7 0) = 0 := by
    intro c hc hc8'
    by_cases hc8 : c % 8 = 0
    · have hceq : 8*(c/8) = c := by omega
      have hz := leader_sendsTo_buf7 n (c/8) 0
      rw [hceq] at hz
      rw [hz]
      split_ifs <;> omega
    · exact nonleader_sendsTo_buf7 n c 0 (by omega)
  have hsing := sendTotal_le_single_if n u 8 (buf7 0) hsupp
  have h8n : 8 < n := by
    by_contra hno
    rw [if_neg hno] at hsing
    omega
  rw [if_pos h8n] at hsing
  refine ⟨h8n, ?_⟩
  have htake := chain7_take n 1 (by omega) (by omega)
  have htake' : sendsTo ((syncProg n 8).take (sendIdx7 n 1)) (buf7 0) = 0 := htake
  have hApos : 1 ≤ sendsTo (fired (syncProg n) u 8) (buf7 0) := by omega
  have hpos : 0 < sendsTo ((syncProg n 8).take (cnt u 8)) (buf7 0) := hApos
  exact lt_of_sendsTo_take_pos (syncProg n 8) (buf7 0) (sendIdx7 n 1) (cnt u 8) htake' hpos

/-- If the leader of tile `t ≥ 1` has consumed two `r7` tokens — or one,
in the case where no tile lies above `t` — then core 0 has passed its own
`r7` receive. -/
theorem cd_from_recv7 (n : Nat) (u : Sys) (hcons : Consv n u)
    (t : Nat) (h0 : 0 < t) (h8 : 8*t < n)
    (hrc : 1 ≤ recvCount (fired (syncProg n) u (8*t)) (buf7 t))
    (hcase : 2 ≤ recvCount (fired (syncProg n) u (8*t)) (buf7 t) ∨ n ≤ 8*(t+1)) :
    did u 0 1 := by
  have hst := recv_le_sendTotal n u hcons (8*t) (buf7 t) h8
  have hsupp : ∀ c, c < n → c ≠ 0 → c ≠ 8*(t+1) → sendsTo (syncProg n c) (buf7 t) = 0 := by
    intro c hc hc0 hcb
    by_cases hc8 : c % 8 = 0
    · have hceq : 8*(c/8) = c := by omega
      have hz := leader_sendsTo_buf7 n (c/8) t
      rw [hceq] at hz
      rw [hz]
      split_ifs <;> omega
    · exact nonleader_sendsTo_buf7 n c t (by omega)
  have hpair := sendTotal_le_pair_if n u 0 (8*(t+1)) (buf7 t) hsupp
  have hBle : (if 8*(t+1) < n then sendsTo (fired (syncProg n) u (8*(t+1))) (buf7 t) else 0) ≤ 1 := by
    by_cases hbn : 8*(t+1) < n
    · rw [if_pos hbn]
      have hfle := fired_sendsTo_le n u (8*(t+1)) (buf7 t)
      have hz := leader_sendsTo_buf7 n (t+1) t
      rw [hz] at hfle
      split_ifs at hfle <;> omega
    · rw [if_neg hbn]
      omega
  have hA : 1 ≤ (if 0 < n then sendsTo (fired (syncProg n) u 0) (buf7 t) else 0) := by
    rcases hcase with h2 | hlast
    · omega
    · have hBz : (if 8*(t+1) < n then sendsTo (fired (syncProg n) u (8*(t+1))) (buf7 t) else 0) = 0 := by
        rw [if_neg (by omega)]
      omega
  rw [if_pos (by omega)] at hA
  have h9 : 8 < n := by
    by_contra hle
    have hz := leader_sendsTo_buf7 n 0 t
    rw [show 8*0 = 0 from rfl] at hz
    rw [if_pos (show nT n ≤ 1 by unfold nT; omega)] at hz
    have hfle := fired_sendsTo_le n u 0 (buf7 t)
    omega
  have htake := fan_take2 n t h9
  have hpos : 0 < sendsTo ((syncProg n 0).take (cnt u 0)) (buf7 t) := hA
  have h2lt := lt_of_sendsTo_take_pos (syncProg n 0) (buf7 t) 2 (cnt u 0) htake hpos
  show 1 < cnt u 0
  omega

/-- Everyone at or above position `g` on `g`'s own tile has entered. -/
def SufTile (n : Nat) (s : Sys) (g : Nat) : Prop :=
  ∀ g', g ≤ g' → g' < 8*(g/8) + ctt n (g/8) → ent s g'

/-- Every participant numbered `m` or above has entered. -/
def SufAll (n : Nat) (s : Sys) (m : Nat) : Prop :=
  ∀ g', m ≤ g' → g' < n → ent s g'

/-- Every participant has entered. -/
def AllEnt (n : Nat) (s : Sys) : Prop := ∀ g', g' < n → ent s g'

/-- The inductive invariant of the hierarchical barrier: each kind of
send is performed only once the cores it vouches for have entered.
(a) a non-leader's chain send vouches for the suffix of its tile;
(b) a leader's inter-tile chain send vouches for every core of its tile
    and of the tiles above it;
(c) core 0 passes its inter-tile receive only once everyone has entered;
(d) a release multicast happens only once everyone has entered. -/
def Inv (n : Nat) (s : Sys) : Prop :=
  (∀ g, g < n → 0 < g % 8 → did s g (chainIdx n g) → SufTile n s g) ∧
  (∀ t, 0 < t → 8*t < n → did s (8*t) (sendIdx7 n t) → SufAll n s (8*t)) ∧
  (8 < n → did s 0 1 → AllEnt n s) ∧
  (∀ t, 8*t < n → 1 < ctt n t → did s (8*t) (relIdx n t) → AllEnt n s)

theorem ent_of_status (s : Sys) (c k : Nat) (h : s.status c = some k) : ent s c := by
  show s.status c ≠ none
  rw [h]
  simp

theorem inv_init (n : Nat) : Inv n sysInit := by
  have hd : ∀ g i, ¬ did sysInit g i := by
    intro g i
    show ¬ i < cnt sysInit g
    have h0 : cnt sysInit g = 0 := rfl
    omega
  exact ⟨fun g _ _ h => absurd h (hd _ _), fun t _ _ h => absurd h (hd _ _),
    fun _ h => absurd h (hd _ _), fun t _ _ h => absurd h (hd _ _)⟩

/-- Preservation of the barrier invariant under one step. -/
theorem inv_step (n : Nat) (s s' : Sys)
    (hcons : Consv n s) (hcons' : Consv n s')
    (hstep : Step n (syncProg n) s s')
    (hinv : Inv n s) : Inv n s' := by
  obtain ⟨ca, cc, cd, ce⟩ := hinv
  have hmono : ∀ g', ent s g' → ent s' g' :=
    fun g' h => ent_mono_step n (syncProg n) s s' hstep g' h
  rcases step_shape n (syncProg n) s s' hstep with hsame | ⟨c, k, a, hc, hs, ha, hcnt⟩
  · have hdid0 : ∀ g i, did s' g i ↔ did s g i := by
      intro g i
      show i < cnt s' g ↔ i < cnt s g
      rw [hsame g]
    refine ⟨?_, ?_, ?_, ?_⟩
    · intro g hg hp htrig
      have h := ca g hg hp ((hdid0 _ _).1 htrig)
      intro g' h1 h2
      exact hmono g' (h g' h1 h2)
    · intro t ht h8t htrig
      have h := cc t ht h8t ((hdid0 _ _).1 htrig)
      intro g' h1 h2
      exact hmono g' (h g' h1 h2)
    · intro h9 htrig
      have h := cd h9 ((hdid0 _ _).1 htrig)
      intro g' hg'
      exact hmono g' (h g' hg')
    · intro t h8t hct htrig
      have h := ce t h8t hct ((hdid0 _ _).1 htrig)
      intro g' hg'
      exact hmono g' (h g' hg')
  · have hkc : cnt s c = k := cnt_of_status s c k hs
    have hentc : ent s c := ent_of_status s c k hs
    have hdid : ∀ g i, did s' g i ↔ (did s g i ∨ (g = c ∧ i = k)) := by
      intro g i
      show i < cnt s' g ↔ (i < cnt s g ∨ (g = c ∧ i = k))
      rw [hcnt g]
      by_cases hgg : g = c
      · rw [if_pos hgg, hgg, hkc]
        constructor
        · intro hi
          rcases Nat.lt_or_ge i k with h' | h'
          · exact Or.inl h'
          · exact Or.inr ⟨rfl, by omega⟩
        · rintro (h' | ⟨-, h'⟩) <;> omega
      · rw [if_neg hgg]
        constructor
        · exact fun h' => Or.inl h'
        · rintro (h' | ⟨hgc2, -⟩)
          · exact h'
          · exact absurd hgc2 hgg
    refine ⟨?_, ?_, ?_, ?_⟩
    · -- (a) chain sends
      intro g hg hp htrig
      rcases (hdid _ _).1 htrig with hold | ⟨hgc, hik⟩
      · have h := ca g hg hp hold
        intro g' h1 h2
        exact hmono g' (h g' h1 h2)
      · have hkg : cnt s g = k := by rw [hgc]; exact hkc
        have hentg : ent s g := by rw [hgc]; exact hentc
        by_cases hcl : g % 8 + 1 < ctt n (g / 8)
        · have hk1 : chainIdx n g = 1 := by
            unfold chainIdx
            rw [if_pos hcl]
          have hdid0 : did s g 0 := by
            show 0 < cnt s g
            omega
          have hrc : 1 ≤ recvCount (fired (syncProg n) s g) (buf3 g) := by
            have h1 : recvCount ((syncProg n g).take 1) (buf3 g)
                ≤ recvCount (fired (syncProg n) s g) (buf3 g) :=
              recvCount_fired_of_did (syncProg n) s g 0 (buf3 g) hdid0
            rw [rcA_take1 n g hp hcl] at h1
            exact h1
          rcases sender3_of_recv n s hcons g hg hp hrc with hrel | ⟨h1n, h1p, hC⟩
          · have hct : 1 < ctt n (g/8) := by
              have := pos_lt_ctt n g hg
              omega
            have hall := ce (g/8) (by omega) hct hrel
            intro g' h1 h2
            have hle : 8*(g/8) + ctt n (g/8) ≤ n := by unfold ctt; omega
            exact hmono g' (hall g' (by omega))
          · have hsuf := ca (g+1) h1n h1p hC
            intro g' h1 h2
            by_cases hgg : g' = g
            · exact hmono g' (by rw [hgg]; exact hentg)
            · have hq : (g+1)/8 = g/8 := by omega
              refine hmono g' (hsuf g' (by omega) ?_)
              rw [hq]
              exact h2
        · intro g' h1 h2
          have hlt := pos_lt_ctt n g hg
          have hg'eq : g' = g := by omega
          exact hmono g' (by rw [hg'eq]; exact hentg)
    · -- (b) inter-tile chain sends
      intro t ht h8t htrig
      rcases (hdid _ _).1 htrig with hold | ⟨hgc, hik⟩
      · have h := cc t ht h8t hold
        intro g' h1 h2
        exact hmono g' (h g' h1 h2)
      · have hk8 : cnt s (8*t) = k := by rw [hgc]; exact hkc
        have hent8 : ent s (8*t) := by rw [hgc]; exact hentc
        have htile : ∀ g', 8*t ≤ g' → g' < 8*t + ctt n t → ent s' g' := by
          by_cases hct : 1 < ctt n t
          · have hk1 : 1 ≤ k := by
              have hk := hik
              unfold sendIdx7 at hk
              rw [if_pos hct] at hk
              split_ifs at hk <;> omega
            have hdid0 : did s (8*t) 0 := by
              show 0 < cnt s (8*t)
              omega
            have hrc : 1 ≤ recvCount (fired (syncProg n) s (8*t)) (buf3 (8*t)) := by
              have h1 : recvCount ((syncProg n (8*t)).take 1) (buf3 (8*t))
                  ≤ recvCount (fired (syncProg n) s (8*t)) (buf3 (8*t)) :=
                recvCount_fired_of_did (syncProg n) s (8*t) 0 (buf3 (8*t)) hdid0
              rw [rc_leader_take1 n t h8t hct] at h1
              exact h1
            obtain ⟨h1n, hC⟩ := sender3_of_recv_leader n s hcons t h8t hrc
            have hsuf := ca (8*t+1) h1n (by omega) hC
            intro g' hlo hhi
            by_cases hgg : g' = 8*t
            · exact hmono g' (by rw [hgg]; exact hent8)
            · have hq : (8*t+1)/8 = t := by omega
              refine hmono g' (hsuf g' (by omega) ?_)
              rw [hq]
              exact hhi
          · intro g' hlo hhi
            have hc1 : ctt n t = 1 := by
              have h := hct
              unfold ctt at h
              unfold ctt
              omega
            have hg'eq : g' = 8*t := by omega
            exact hmono g' (by rw [hg'eq]; exact hent8)
        by_cases hup : 8*(t+1) < n
        · have hct : 1 < ctt n t := by unfold ctt; omega
          have hk2 : k = 2 := by
            have hk := hik
            unfold sendIdx7 at hk
            rw [if_pos hct, if_pos (show t < nT n - 1 by unfold nT; omega)] at hk
            omega
          have hdid1 : did s (8*t) 1 := by
            show 1 < cnt s (8*t)
            omega
          have hrc7 : 1 ≤ recvCount (fired (syncProg n) s (8*t)) (buf7 t) := by
            have h1 : recvCount ((syncProg n (8*t)).take 2) (buf7 t)
                ≤ recvCount (fired (syncProg n) s (8*t)) (buf7 t) :=
              recvCount_fired_of_did (syncProg n) s (8*t) 1 (buf7 t) hdid1
            rw [rc_L3_take2 n t ht hup] at h1
            exact h1
          rcases sender7_of_recv n s hcons t ht h8t hrc7 with hD0 | ⟨hbn, hS⟩
          · have hall := cd (by omega) hD0
            intro g' hlo hhi
            exact hmono g' (hall g' hhi)
          · have hsufA := cc (t+1) (by omega) hbn hS
            have hc8' : ctt n t = 8 := by unfold ctt; omega
            intro g' hlo hhi
            by_cases hg8 : g' < 8*(t+1)
            · refine htile g' hlo ?_
              rw [hc8']
              omega
            · exact hmono g' (hsufA g' (by omega) hhi)
        · intro g' hlo hhi
          exact htile g' hlo (by unfold ctt; omega)
    · -- (c) core 0 passes its inter-tile receive
      intro h9 htrig
      rcases (hdid 0 1).1 htrig with hold | ⟨hgc, hik⟩
      · have h := cd h9 hold
        intro g' hg'
        exact hmono g' (h g' hg')
      · have hk0 : cnt s 0 = k := by rw [hgc]; exact hkc
        have hent0 : ent s 0 := by rw [hgc]; exact hentc
        have hdid00 : did s 0 0 := by
          show 0 < cnt s 0
          omega
        have hrc : 1 ≤ recvCount (fired (syncProg n) s 0) (buf3 0) := by
          have h1 : recvCount ((syncProg n 0).take 1) (buf3 0)
              ≤ recvCount (fired (syncProg n) s 0) (buf3 0) :=
            recvCount_fired_of_did (syncProg n) s 0 0 (buf3 0) hdid00
          have h2 := rc_leader_take1 n 0 (by omega) (by unfold ctt; omega)
          simp only [Nat.mul_zero] at h2
          omega
        obtain ⟨h1n, hC⟩ := sender3_of_recv_leader n s hcons 0 (by omega) (by simpa using hrc)
        simp only [Nat.mul_zero, Nat.zero_add] at h1n hC
        have hsuf := ca 1 h1n (by omega) hC
        have hrc7' : 1 ≤ recvCount (fired (syncProg n) s' 0) (buf7 0) := by
          have h1 : recvCount ((syncProg n 0).take 2) (buf7 0)
              ≤ recvCount (fired (syncProg n) s' 0) (buf7 0) :=
            recvCount_fired_of_did (syncProg n) s' 0 1 (buf7 0) htrig
          rw [rc_L2_take2 n h9] at h1
          exact h1
        obtain ⟨h8n, hS8'⟩ := sender7_of_recv0 n s' hcons' (by omega) hrc7'
        have hS8 : did s 8 (sendIdx7 n 1) := by
          show sendIdx7 n 1 < cnt s 8
          have h1 : sendIdx7 n 1 < cnt s' 8 := hS8'
          rw [hcnt 8, if_neg (show (8:Nat) ≠ c by omega)] at h1
          exact h1
        have hsufA := cc 1 (by omega) (by omega) hS8
        intro g' hg'
        by_cases hg0 : g' = 0
        · subst hg0
          exact hmono 0 hent0
        · by_cases hg8 : g' < 8
          · refine hmono g' (hsuf g' (by omega) ?_)
            rw [show (1:Nat)/8 = 0 from rfl]
            simp only [Nat.mul_zero, Nat.zero_add]
            unfold ctt
            omega
          · exact hmono g' (hsufA g' (by omega) hg')
    · -- (d) release multicasts
      intro t h8t hct htrig
      rcases (hdid _ _).1 htrig with hold | ⟨hgc, hik⟩
      · have h := ce t h8t hct hold
        intro g' hg'
        exact hmono g' (h g' hg')
      · have hk8 : cnt s (8*t) = k := by rw [hgc]; exact hkc
        have hent8 : ent s (8*t) := by rw [hgc]; exact hentc
        by_cases h9 : 8 < n
        · by_cases ht0 : t = 0
          · have hik0 : relIdx n 0 = k := by rw [← ht0]; exact hik
            have hk0 : cnt s 0 = k := by
              have h := hk8
              rw [ht0] at h
              simpa using h
            have hD0 : did s 0 1 := by
              show 1 < cnt s 0
              have h2 := relIdx_L2_ge n h9
              omega
            have hall := cd h9 hD0
            intro g' hg'
            exact hmono g' (hall g' hg')
          · have ht1 : 0 < t := Nat.pos_of_ne_zero ht0
            have hn2 : 8*t + 1 < n := by
              have h := hct
              unfold ctt at h
              omega
            have hfe : fired (syncProg n) s (8*t) = (syncProg n (8*t)).take (relIdx n t) := by
              show (syncProg n (8*t)).take (cnt s (8*t)) = _
              rw [hk8, ← hik]
            by_cases hup : 8*(t+1) < n
            · have hrceq : recvCount (fired (syncProg n) s (8*t)) (buf7 t) = 2 := by
                rw [hfe]
                exact (rc_rel_take n t ht1 hn2).1 hup
              have hD0 := cd_from_recv7 n s hcons t ht1 h8t (by omega) (Or.inl (by omega))
              intro g' hg'
              exact hmono g' (cd h9 hD0 g' hg')
            · have hrceq : recvCount (fired (syncProg n) s (8*t)) (buf7 t) = 1 := by
                rw [hfe]
                exact (rc_rel_take n t ht1 hn2).2 (by omega)
              have hD0 := cd_from_recv7 n s hcons t ht1 h8t (by omega) (Or.inr (by omega))
              intro g' hg'
              exact hmono g' (cd h9 hD0 g' hg')
        · have ht0 : t = 0 := by omega
          have hct0 : 1 < ctt n 0 := by rw [← ht0]; exact hct
          have hk0 : cnt s 0 = k := by
            have h := hk8
            rw [ht0] at h
            simpa using h
          have hik0 : relIdx n 0 = k := by rw [← ht0]; exact hik
          have hent0 : ent s 0 := by
            have h := hent8
            rw [ht0] at h
            simpa using h
          have hdid00 : did s 0 0 := by
            show 0 < cnt s 0
            have := relIdx_pos n 0 (by omega) hct0
            omega
          have hrc : 1 ≤ recvCount (fired (syncProg n) s 0) (buf3 0) := by
            have h1 : recvCount ((syncProg n 0).take 1) (buf3 0)
                ≤ recvCount (fired (syncProg n) s 0) (buf3 0) :=
              recvCount_fired_of_did (syncProg n) s 0 0 (buf3 0) hdid00
            have h2 := rc_leader_take1 n 0 (by omega) hct0
            simp only [Nat.mul_zero] at h2
            omega
          obtain ⟨h1n, hC⟩ := sender3_of_recv_leader n s hcons 0 (by omega) (by simpa using hrc)
          simp only [Nat.mul_zero, Nat.zero_add] at h1n hC
          have hsuf := ca 1 h1n (by omega) hC
          intro g' hg'
          by_cases hg0 : g' = 0
          · subst hg0
            exact hmono 0 hent0
          · refine hmono g' (hsuf g' (by omega) ?_)
            rw [show (1:Nat)/8 = 0 from rfl]
            simp only [Nat.mul_zero, Nat.zero_add]
            unfold ctt
            omega

/-- The barrier invariant holds in every reachable state. -/
theorem inv_reach (n : Nat) (s : Sys) (h : Reach n (syncProg n) s) : Inv n s := by
  induction h with
  | refl => exact inv_init n
  | tail hr hstep ih =>
    rename_i t u
    exact inv_step n t u
      (fun ch => reach_conservation n (syncProg n) t hr ch)
      (fun ch => reach_conservation n (syncProg n) u (Relation.ReflTransGen.tail hr hstep) ch)
      hstep ih

/-- **C2.** For every participant count `n` in the valid range
(`loki_sync_ex` asserts `cores <= 128`), the hierarchical barrier
`loki_sync(n) / loki_sync_ex(n, first_tile)` returns on a participating
core only after all `n` participants have invoked it: in any reachable
state of the protocol in which some participant `c` has completed its
whole program (returned from the call), every participant has entered. -/
theorem loki_sync_ex_no_early_return (n : Nat) (hn : n ≤ 128) (s : Sys)
    (hreach : Reach n (syncProg n) s) (c : Nat) (hc : c < n)
    (hret : s.status c = some (syncProg n c).length) :
    ∀ g, g < n → ent s g := by
  obtain ⟨ca, cc, cd, ce⟩ := inv_reach n s hreach
  have hcons : Consv n s := fun ch => reach_conservation n (syncProg n) s hreach ch
  have hkc : cnt s c = (syncProg n c).length := cnt_of_status s c _ hret
  have hentc : ent s c := ent_of_status s c _ hret
  by_cases hn1 : n ≤ 1
  · intro g hg
    have hgc : g = c := by omega
    exact (by rw [hgc]; exact hentc)
  · have hfull : fired (syncProg n) s c = syncProg n c := by
      show (syncProg n c).take (cnt s c) = _
      rw [hkc]
      exact List.take_length _
    by_cases hp : 0 < c % 8
    · by_cases hcl : c % 8 + 1 < ctt n (c / 8)
      · have hrc : 2 ≤ recvCount (fired (syncProg n) s c) (buf3 c) := by
          rw [hfull, rcA_full n c hp hcl]
        have hrel := rel_sender_of_two n s hcons c hc hp hrc
        have hct : 1 < ctt n (c/8) := by
          have := pos_lt_ctt n c hc
          omega
        exact fun g hg => ce (c/8) (by omega) hct hrel g hg
      · have hrc : 1 ≤ recvCount (fired (syncProg n) s c) (buf3 c) := by
          rw [hfull, rcB_full n c hp (by omega)]
        rcases sender3_of_recv n s hcons c hc hp hrc with hrel | ⟨h1n, h1p, -⟩
        · have hct : 1 < ctt n (c/8) := by
            have := pos_lt_ctt n c hc
            omega
          exact fun g hg => ce (c/8) (by omega) hct hrel g hg
        · exfalso
          have hlt := pos_lt_ctt n c hc
          have h1 := hcl
          unfold ctt at hlt h1
          omega
    · have hceq : c = 8*(c/8) := by omega
      by_cases hct : 1 < ctt n (c/8)
      · have hsp := prog_leader n (c/8)
        rw [if_pos hct] at hsp
        rw [← hceq] at hsp
        have hlp : 0 < (syncProg n c).length := by
          rw [hsp, List.length_append]
          simp
        have hrel : did s (8*(c/8)) (relIdx n (c/8)) := by
          show relIdx n (c/8) < cnt s (8*(c/8))
          unfold relIdx
          rw [← hceq, hkc]
          omega
        exact fun g hg => ce (c/8) (by omega) hct hrel g hg
      · have h8cn : 8*(c/8) < n := by omega
        have hone : n = 8*(c/8) + 1 := by
          have h := hct
          unfold ctt at h
          omega
        have ht1 : 0 < c / 8 := by omega
        have hrc : 1 ≤ recvCount (fired (syncProg n) s c) (buf7 (c/8)) := by
          rw [hfull]
          have h2 := rc_L5_full n (c/8) ht1 hone
          rw [← hceq] at h2
          omega
        have hD0 := cd_from_recv7 n s hcons (c/8) ht1 h8cn
          (by rw [← hceq]; exact hrc) (Or.inr (by omega))
        have h9 : 8 < n := by omega
        exact fun g hg => cd h9 hD0 g hg

/-- States of a two-core barrier run witnessing the main theorem: core 1
enters and sends its chain token, core 0 enters, collects it, and
releases; core 0 has then returned. -/
def syncW1 : Sys := ⟨Function.update sysInit.status 1 (some 0), sysInit.tokens⟩

def syncW2 : Sys :=
  ⟨Function.update syncW1.status 1 (some 1),
    Function.update syncW1.tokens 0 (syncW1.tokens 0 + 1)⟩

def syncW3 : Sys := ⟨Function.update syncW2.status 0 (some 0), syncW2.tokens⟩

def syncW4 : Sys :=
  ⟨Function.update syncW3.status 0 (some 1),
    Function.update syncW3.tokens 0 (syncW3.tokens 0 - 1)⟩

def syncW5 : Sys :=
  ⟨Function.update syncW4.status 0 (some 2),
    fun b => syncW4.tokens b + ([2] : List Nat).count b⟩

theorem syncW_reach : Reach 2 (syncProg 2) syncW5 := by
  have h1 : Step 2 (syncProg 2) sysInit syncW1 := Step.enter sysInit 1 (by decide) rfl
  have h2 : Step 2 (syncProg 2) syncW1 syncW2 :=
    Step.send syncW1 1 0 0 (by decide) rfl (by decide)
  have h3 : Step 2 (syncProg 2) syncW2 syncW3 := Step.enter syncW2 0 (by decide) rfl
  have h4 : Step 2 (syncProg 2) syncW3 syncW4 :=
    Step.recv syncW3 0 0 0 (by decide) rfl (by decide) (by decide)
  have h5 : Step 2 (syncProg 2) syncW4 syncW5 :=
    Step.sendM syncW4 0 1 [2] (by decide) rfl (by decide)
  exact Relation.ReflTransGen.head h1 (Relation.ReflTransGen.head h2
    (Relation.ReflTransGen.head h3 (Relation.ReflTransGen.head h4
      (Relation.ReflTransGen.head h5 Relation.ReflTransGen.refl))))

/-- Witness: in the concrete two-core run, core 0 has returned from the
barrier, and the theorem yields that both participants have entered. -/
theorem loki_sync_ex_no_early_return_witness :
    (2 ≤ 128) ∧ (0 < 2) ∧
    syncW5.status 0 = some ((syncProg 2 0).length) ∧
    (∀ g, g < 2 → ent syncW5 g) := by
  refine ⟨by decide, by decide, by decide, ?_⟩
  exact loki_sync_ex_no_early_return 2 (by decide) syncW5 syncW_reach 0 (by decide) (by decide)

end SyncModel

end LokiModel
